import Mathlib

/-!
# Verification of the sat-parser interval-matrix / temporal-network core

Shallow embedding of `soap-utils/matrix.py` (class `IntervalMatrix`),
`src/soap_parser/tvg.py` (class `TVG` / `TemporalNetwork`) and
`src/soap_parser/report_parser.py` (`contact_plan_to_matrix`).

Interval values of the `portion` library are embedded as lists of atomic
intervals with rational (or infinite) bounds.  `portion` keeps every
interval in a canonical form, and its observable operations (`|`, `&`, `~`,
`in`, `==`) act on the underlying set of reals; here intervals with
rational endpoints are compared through their (dense) rational members, a
comparison which is decided by evaluating membership on finitely many test
points.  Python exceptions (`IndexError`, `ValueError`, `AssertionError`)
are modelled with `Option`: `none` is a raised exception.
-/

namespace SatParser

/-- A bound of an atomic interval: `none` is an infinite bound (portion
forces bounds at infinity to be open); `some (q, c)` is the finite bound
`q`, closed iff `c`. -/
abbrev Bound := Option (ℚ × Bool)

/-- One atomic interval (one sub-range of a portion interval): a lower and
an upper bound. -/
structure Atomic where
  lo : Bound
  hi : Bound
deriving DecidableEq

/-- Does `t` satisfy the lower bound? -/
def lowOk : Bound → ℚ → Bool
  | none, _ => true
  | some (q, c), t => decide (q < t) || (c && decide (q = t))

/-- Does `t` satisfy the upper bound? -/
def highOk : Bound → ℚ → Bool
  | none, _ => true
  | some (q, c), t => decide (t < q) || (c && decide (t = q))

/-- Membership of a rational point in an atomic interval. -/
def memA (a : Atomic) (t : ℚ) : Bool := lowOk a.lo t && highOk a.hi t

/-- A portion interval: a finite union of atomic intervals. -/
abbrev Interval := List Atomic

/-- `t in I` for a portion interval. -/
def memI (I : Interval) (t : ℚ) : Bool := I.any (memA · t)

/-- `P.empty()`. -/
def emptyI : Interval := []

/-- `P.open(-P.inf, P.inf)` (also the value of `P.closed(-P.inf, P.inf)`,
since portion opens bounds at infinity). -/
def unboundedI : Interval := [⟨none, none⟩]

/-- `P.closed(a, b)`. -/
def closedI (a b : ℚ) : Interval := [⟨some (a, true), some (b, true)⟩]

/-- The finite endpoint values of an atomic interval. -/
def Atomic.eps (a : Atomic) : List ℚ :=
  (a.lo.map Prod.fst).toList ++ (a.hi.map Prod.fst).toList

/-- The finite endpoint values of an interval. -/
def Interval.eps (I : Interval) : List ℚ := I.flatMap Atomic.eps

/-! ## Sorted deduplicated insertion (used by `sorted(list(set(...)))`
and by the test-point construction) -/

/-- Insert a value into a sorted duplicate-free list, keeping it sorted
and duplicate-free. -/
def insertSD [LinearOrder α] (x : α) : List α → List α
  | [] => [x]
  | y :: ys =>
    if x < y then x :: y :: ys
    else if x = y then y :: ys
    else y :: insertSD x ys

/-- Sort a list and remove duplicates (the model of Python's
`sorted(list(set(l)))`). -/
def sortedDedup [LinearOrder α] (l : List α) : List α := l.foldr insertSD []

/-! ## Test points

A finite union of intervals with rational endpoints is a piecewise
constant predicate on ℚ whose breakpoints are among the endpoints; hence
two such unions agree everywhere as soon as they agree on one point per
region.  `testPoints S` produces one point per region of the endpoint
arrangement `S`. -/

/-- Midpoints of consecutive elements. -/
def midpts : List ℚ → List ℚ
  | x :: y :: rest => (x + y) / 2 :: midpts (y :: rest)
  | _ => []

/-- One representative per region of the arrangement given by the sorted
list `S`: a point below all of `S`, the points of `S` themselves, the
midpoints of consecutive points, and a point above all of `S`. -/
def testPoints (S : List ℚ) : List ℚ :=
  match S with
  | [] => [0]
  | x :: rest => (x - 1) :: ((x :: rest) ++ midpts (x :: rest) ++ [(x :: rest).getLastD 0 + 1])

/-- `t` and `p` lie on the same side of the endpoint `e`. -/
def SameSide (t p e : ℚ) : Prop := (e < t ↔ e < p) ∧ (e = t ↔ e = p)

/-! ## Decidable set-equality and containment of intervals

`portion` keeps intervals canonical, so its `==` and `in` observe exactly
the underlying sets; with rational endpoints the sets are determined by
their rational members, decided here on the finitely many test points of
the joint endpoint arrangement. -/

/-- The joint endpoint arrangement of two intervals. -/
def epsArr (I J : Interval) : List ℚ := sortedDedup (I.eps ++ J.eps)

/-- portion `==` on intervals (equality of the underlying sets). -/
def intervalEq (I J : Interval) : Bool :=
  (testPoints (epsArr I J)).all fun p => memI I p == memI J p

/-- portion `in` on intervals (containment of the underlying sets). -/
def isSubset (I J : Interval) : Bool :=
  (testPoints (epsArr I J)).all fun p => !memI I p || memI J p

/-! ## The portion operations `|`, `&`, `~` -/

/-- portion `|` (union).  portion canonicalizes the representation of the
result; every observation made of a union in this development is
membership-based, for which concatenation of atom lists is exact. -/
def unionI (I J : Interval) : Interval := I ++ J

/-- Larger of two lower bounds. -/
def maxLB : Bound → Bound → Bound
  | none, b => b
  | some (q, c), none => some (q, c)
  | some (q, c), some (q', c') =>
    if q < q' then some (q', c')
    else if q' < q then some (q, c)
    else some (q, c && c')

/-- Smaller of two upper bounds. -/
def minUB : Bound → Bound → Bound
  | none, b => b
  | some (q, c), none => some (q, c)
  | some (q, c), some (q', c') =>
    if q < q' then some (q, c)
    else if q' < q then some (q', c')
    else some (q, c && c')

/-- Intersection of two atomic intervals. -/
def interA (a b : Atomic) : Atomic := ⟨maxLB a.lo b.lo, minUB a.hi b.hi⟩

/-- portion `&` (intersection): pairwise intersection of atoms. -/
def interI (I J : Interval) : Interval := I.flatMap fun a => J.map (interA a)

/-- portion `~` (complement) of one atomic interval. -/
def complA (a : Atomic) : Interval :=
  (match a.lo with
    | none => []
    | some (q, c) => [⟨none, some (q, !c)⟩]) ++
  (match a.hi with
    | none => []
    | some (q, c) => [⟨some (q, !c), none⟩])

/-- portion `~` (complement): intersect the complements of the atoms. -/
def complI (I : Interval) : Interval :=
  I.foldl (fun acc a => interI acc (complA a)) unboundedI

/-! ## IntervalMatrix (`soap-utils/matrix.py`) -/

/-- The `IntervalMatrix` object: `m` rows by `n` columns of portion
intervals, with optional row labels. -/
structure IntervalMatrix where
  dim_row : ℕ
  dim_col : ℕ
  array : List (List Interval)
  labels : Option (List String)

/-- `IntervalMatrix.empty_array`. -/
def empty_array (m n : ℕ) : List (List Interval) :=
  List.replicate m (List.replicate n emptyI)

/-- `IntervalMatrix.__init__`: the label-length assert (AssertionError)
and the array-shape checks (ValueError) are modelled as `none`. -/
def mkIntervalMatrix (m n : ℕ) (array : Option (List (List Interval)))
    (labels : Option (List String)) : Option IntervalMatrix :=
  let arr := match array with | some a => a | none => empty_array m n
  if (match labels with | none => true | some ls => ls.length == m)
      && arr.length == m && arr.all (fun row => row.length == n) then
    some ⟨m, n, arr, labels⟩
  else none

/-- Shape invariant guaranteed by `__init__` for every constructed
matrix. -/
def IntervalMatrix.WF (M : IntervalMatrix) : Prop :=
  M.array.length = M.dim_row ∧ (∀ row ∈ M.array, row.length = M.dim_col) ∧
    ∀ ls, M.labels = some ls → ls.length = M.dim_row

/-- `__getitem__` (used by the operators only at in-range positions). -/
def IntervalMatrix.cell (M : IntervalMatrix) (i j : ℕ) : Interval :=
  (M.array.getD i []).getD j emptyI

/-- `IntervalMatrix.get_indices`. -/
def get_indices (rows columns : ℕ) : List (ℕ × ℕ) :=
  (List.range rows).flatMap fun i => (List.range columns).map fun j => (i, j)

/-- Row-major grid of cells given by a function (the result of the
`for (i, j) in get_indices: matrix[i, j] = ...` filling loops). -/
def gridOf (m n : ℕ) (f : ℕ → ℕ → Interval) : List (List Interval) :=
  (List.range m).map fun i => (List.range n).map fun j => f i j

/-- `__add__` (cellwise `|`); a dimension mismatch raises ValueError. -/
def maddT (A B : IntervalMatrix) : IntervalMatrix :=
  ⟨A.dim_row, A.dim_col,
    gridOf A.dim_row A.dim_col fun i j => unionI (A.cell i j) (B.cell i j), none⟩

def madd? (A B : IntervalMatrix) : Option IntervalMatrix :=
  if A.dim_row = B.dim_row ∧ A.dim_col = B.dim_col then some (maddT A B) else none

/-- `__mul__` (`matrix[i, j] |= self[i, k] & other[k, j]` accumulated over
the contraction index, starting from the empty cell); a dimension mismatch
raises ValueError. -/
def mmulT (A B : IntervalMatrix) : IntervalMatrix :=
  ⟨A.dim_row, B.dim_col,
    gridOf A.dim_row B.dim_col fun i j =>
      (List.range A.dim_col).foldl
        (fun acc k => unionI acc (interI (A.cell i k) (B.cell k j))) emptyI,
    none⟩

def mmul? (A B : IntervalMatrix) : Option IntervalMatrix :=
  if A.dim_col = B.dim_row then some (mmulT A B) else none

/-- `__invert__` (cellwise `~`). -/
def minvert (A : IntervalMatrix) : IntervalMatrix :=
  ⟨A.dim_row, A.dim_col,
    gridOf A.dim_row A.dim_col fun i j => complI (A.cell i j), none⟩

/-- `__eq__`: same dimensions and cellwise portion equality. -/
def matrixEq (A B : IntervalMatrix) : Bool :=
  if A.dim_col ≠ B.dim_col ∨ A.dim_row ≠ B.dim_row then false
  else (get_indices A.dim_row A.dim_col).all fun ij =>
    intervalEq (A.cell ij.1 ij.2) (B.cell ij.1 ij.2)

/-- `__contains__`: `B in A` iff same dimensions and every cell of `B` is
contained in the matching cell of `A`. -/
def mcontains (A B : IntervalMatrix) : Bool :=
  if A.dim_col ≠ B.dim_col ∨ A.dim_row ≠ B.dim_row then false
  else (get_indices A.dim_row A.dim_col).all fun ij =>
    isSubset (B.cell ij.1 ij.2) (A.cell ij.1 ij.2)

/-- `identity_matrix`: empty m×m matrix whose diagonal cells are then set
to the unbounded interval. -/
def identity_matrix (m : ℕ) : IntervalMatrix :=
  ⟨m, m, gridOf m m fun i j => if i = j then unboundedI else emptyI, none⟩

/-- `constant_matrix` builds an m×n array of copies of `value` but passes
`(m, m)` as the dimensions to the constructor, which therefore raises
ValueError whenever `n ≠ m` (and `m > 0`). -/
def constant_matrix? (m n : ℕ) (value : Interval) : Option IntervalMatrix :=
  mkIntervalMatrix m m (some (List.replicate m (List.replicate n value))) none

/-- `is_symmetric`. -/
def is_symmetric (M : IntervalMatrix) : Bool :=
  if M.dim_row ≠ M.dim_col then false
  else ((get_indices M.dim_row M.dim_col).filter fun ij => ij.2 < ij.1).all
    fun ij => intervalEq (M.cell ij.1 ij.2) (M.cell ij.2 ij.1)

/-- Python `zip(*rows)` on a list of rows: truncates to the shortest
row. -/
def minRowLen (a : List (List Interval)) : ℕ :=
  match a.map List.length with
  | [] => 0
  | x :: xs => xs.foldl min x

def zipTranspose (a : List (List Interval)) : List (List Interval) :=
  match a with
  | [] => []
  | _ => (List.range (minRowLen a)).map fun j => a.map fun row => row.getD j emptyI

/-- `get_transpose`: builds the transposed array with `zip(*array)` but
passes the *original* dimensions `(dim_row, dim_col)` to the constructor,
so it raises ValueError whenever the matrix is not square (with
`dim_row > 0`). -/
def get_transpose? (M : IntervalMatrix) : Option IntervalMatrix :=
  mkIntervalMatrix M.dim_row M.dim_col (some (zipTranspose M.array)) none

/-- The list `matrices` built by `get_k_cumulant`'s loop:
`[identity, A·identity, A·(A·identity), …]`. -/
def cumMats (M : IntervalMatrix) : ℕ → List IntervalMatrix
  | 0 => [identity_matrix M.dim_row]
  | k + 1 =>
    let L := cumMats M k
    L ++ [mmulT M (L.getLastD (identity_matrix M.dim_row))]

/-- `get_k_cumulant`: raises ValueError on a non-square matrix, otherwise
`sum(matrices)` (Python's `sum` with `__radd__` folds `+` over the
list). -/
def get_k_cumulant? (M : IntervalMatrix) (k : ℕ) : Option IntervalMatrix :=
  if M.dim_row ≠ M.dim_col then none
  else some (match cumMats M k with
    | [] => identity_matrix M.dim_row
    | x :: xs => xs.foldl maddT x)

/-- `__pow__` by repeated squaring (total version, used on square
matrices). -/
def mpowT (M : IntervalMatrix) (n : ℕ) : IntervalMatrix :=
  if n = 0 then identity_matrix M.dim_row
  else if n % 2 = 0 then mpowT (mmulT M M) (n / 2)
  else mmulT M (mpowT (mmulT M M) ((n - 1) / 2))
termination_by n
decreasing_by
  · exact Nat.div_lt_self (Nat.pos_of_ne_zero (by assumption)) (by norm_num)
  · exact lt_of_le_of_lt (Nat.div_le_self _ _)
      (Nat.sub_lt (Nat.pos_of_ne_zero (by assumption)) (by norm_num))

/-- `__pow__`: raises ValueError on a non-square matrix (`n ≤ 0` yields
the identity). -/
def mpow? (M : IntervalMatrix) (n : ℕ) : Option IntervalMatrix :=
  if M.dim_row ≠ M.dim_col then none else some (mpowT M n)

/-- The entrywise union `power(0) + power(1) + ... + power(k)` (the
Python `sum` shape on the list of powers). -/
def sumPowers (M : IntervalMatrix) (k : ℕ) : IntervalMatrix :=
  match (List.range (k + 1)).map (mpowT M) with
  | [] => identity_matrix M.dim_row
  | x :: xs => xs.foldl maddT x

/-! ## The boolean shadow of the matrix algebra at one fixed time

Fixing a time `t`, membership turns each interval matrix into a boolean
matrix, `|` into `||` and `&` into `&&`; the power/cumulant claims reduce
to boolean matrix algebra. -/

/-- Boolean matrix product over indices below `n`. -/
def bmul (n : ℕ) (f g : ℕ → ℕ → Bool) : ℕ → ℕ → Bool :=
  fun i j => (List.range n).any fun k => f i k && g k j

/-- Left-iterated boolean matrix power. -/
def bpowL (n : ℕ) (b : ℕ → ℕ → Bool) : ℕ → ℕ → ℕ → Bool
  | 0, i, j => decide (i = j)
  | m + 1, i, j => bmul n b (bpowL n b m) i j

/-- Agreement of two boolean matrices on the indices below `n`. -/
def BEqOn (n : ℕ) (f g : ℕ → ℕ → Bool) : Prop :=
  ∀ i j, i < n → j < n → f i j = g i j

/-- The left-multiplication power sequence built by `get_k_cumulant`'s
loop (`matrices[-1]` is `A` applied `m` times to the identity). -/
def mpowL (M : IntervalMatrix) : ℕ → IntervalMatrix
  | 0 => identity_matrix M.dim_row
  | m + 1 => mmulT M (mpowL M m)

/-- The value of `get_k_cumulant` on a square matrix. -/
def cumT (M : IntervalMatrix) (k : ℕ) : IntervalMatrix :=
  ((List.range k).map fun m => mpowL M (m + 1)).foldl maddT
    (identity_matrix M.dim_row)

/-- The transposed-matrix object produced by `get_transpose` on a square
well-formed matrix. -/
def transposeVal (M : IntervalMatrix) : IntervalMatrix :=
  ⟨M.dim_row, M.dim_col, zipTranspose M.array, none⟩

/-- In-place assignment `array[i][j] = v` on a grid of ints
(IndexError out of range). -/
def setNum? (g : List (List ℕ)) (i j : ℕ) (v : ℕ) : Option (List (List ℕ)) :=
  if i < g.length ∧ j < (g.getD i []).length then
    some (g.set i ((g.getD i []).set j v))
  else none

/-- `get_adjacency_matrix_at`: builds the zero grid
`[[0 for i in range(dim_row)] for j in range(dim_col)]` (note the
transposed dimensions) and then sets `array[i][j] = 1` for every in-matrix
index pair `(i, j)` whose cell contains `t`. -/
def get_adjacency_matrix_at? (M : IntervalMatrix) (t : ℚ) :
    Option (List (List ℕ)) :=
  (get_indices M.dim_row M.dim_col).foldlM
    (fun g ij =>
      if memI (M.cell ij.1 ij.2) t = true then setNum? g ij.1 ij.2 1
      else some g)
    (List.replicate M.dim_col (List.replicate M.dim_row 0))

/-! ## Example matrices used by witnesses and counterexamples -/

/-- A well-formed 1×2 matrix, exhibiting the non-square failures. -/
def mat12 : IntervalMatrix := ⟨1, 2, [[emptyI, closedI 0 1]], none⟩

/-- A well-formed symmetric 2×2 matrix with unbounded diagonal. -/
def mat22 : IntervalMatrix :=
  ⟨2, 2, [[unboundedI, closedI 0 6], [closedI 0 6, unboundedI]], none⟩

/-! ## TemporalNetwork / TVG (`src/soap_parser/tvg.py`)

`tvg.py` imports `IntervalMatrix`, `upper_matrix_enumerate` and
`set_labels` from `soap_parser/matrix.py`, a module not present in the
snapshot; the matrix class is modelled by `soap-utils/matrix.py` above
(embedded as `IntervalMatrix`), and the two missing helpers are modelled
from the spec. -/

/-- Modelled from the spec: `upper_matrix_enumerate` of the missing
`soap_parser/matrix.py`; per §4.2 construction reads every off-diagonal
cell `(i, j)` with `i < j` (the `i != j` filter is in `TVG.__init__`), so
the enumeration yields the upper-triangular index pairs `i ≤ j` with
their cells. -/
def upper_matrix_enumerate (M : IntervalMatrix) : List ((ℕ × ℕ) × Interval) :=
  ((get_indices M.dim_row M.dim_col).filter fun ij => ij.1 ≤ ij.2).map
    fun ij => (ij, M.cell ij.1 ij.2)

/-- The `TVG` object: a labelled graph on nodes `0 .. n-1` whose edges
`(i, j)`, `i < j`, carry a `contacts` interval. -/
structure TVG where
  n : ℕ
  labels : List String
  edges : List (ℕ × ℕ × Interval)

/-- Does an atomic interval contain a point?  (Bound comparison only.) -/
def atomNonempty (a : Atomic) : Bool :=
  match a.lo, a.hi with
  | none, _ => true
  | some _, none => true
  | some (q, c), some (q', c') =>
    decide (q < q') || (c && c' && decide (q = q'))

/-- `interval != P.empty()`: portion's empty interval is the unique
canonical representation of the empty set, so the inequality holds
exactly when the interval is non-empty as a set. -/
def nonemptyI (I : Interval) : Bool := I.any atomNonempty

/-- `TVG.__init__`: node labels from the matrix (or stringified indices),
edges from the upper-triangular cells that are non-empty
(`interval != P.empty()`) and off the diagonal. -/
def mkTVG (M : IntervalMatrix) : TVG :=
  let labels := match M.labels with
    | some ls => ls
    | none => (List.range M.dim_row).map toString
  { n := labels.length
    labels := labels
    edges := (upper_matrix_enumerate M).filterMap fun p =>
      if nonemptyI p.2 = true ∧ p.1.1 ≠ p.1.2 then
        some (p.1.1, p.1.2, p.2)
      else none }

/-- `__setitem__` via Python list assignment (IndexError out of range). -/
def IntervalMatrix.setCell? (M : IntervalMatrix) (i j : ℕ) (v : Interval) :
    Option IntervalMatrix :=
  if i < M.array.length ∧ j < (M.array.getD i []).length then
    some { M with array := M.array.set i ((M.array.getD i []).set j v) }
  else none

/-- `TVG.get_interval_matrix`: the identity matrix on the node count,
then `matrix[u, v] = contacts` for each edge (only the upper-triangular
cell is written), then `set_labels` (modelled from the spec: the missing
`set_labels` of `soap_parser/matrix.py` assigns the labels attribute). -/
def get_interval_matrix (G : TVG) : Option IntervalMatrix :=
  (G.edges.foldlM (fun m e => IntervalMatrix.setCell? m e.1 e.2.1 e.2.2)
    (identity_matrix G.n)).map fun m => { m with labels := some G.labels }

/-! ### The write-fold of `get_interval_matrix` -/

/-- The last value written to position `(i, j)` by a sequence of
`matrix[u, v] = c` assignments. -/
def lastWrite (L : List (ℕ × ℕ × Interval)) (i j : ℕ) : Option Interval :=
  L.foldl (fun acc e => if e.1 = i ∧ e.2.1 = j then some e.2.2 else acc) none

/-- An upper-triangular 2×2 matrix with unbounded diagonal. -/
def matUT : IntervalMatrix :=
  ⟨2, 2, [[unboundedI, closedI 0 6], [emptyI, unboundedI]], none⟩

/-! ### Critical times (`TVG.get_critical_times`) -/

/-- Extended time values: the `lower`/`upper` bound values of portion
atomic intervals, which may be `±P.inf`. -/
abbrev XQ := WithBot (WithTop ℚ)

/-- A finite time viewed on the extended axis. -/
def ratXQ (t : ℚ) : XQ := ((t : WithTop ℚ) : XQ)

/-- `i.lower` of an atomic interval. -/
def atomicLower (a : Atomic) : XQ :=
  match a.lo with
  | none => ⊥
  | some (q, _) => ratXQ q

/-- `i.upper` of an atomic interval. -/
def atomicUpper (a : Atomic) : XQ :=
  match a.hi with
  | none => ((⊤ : WithTop ℚ) : XQ)
  | some (q, _) => ratXQ q

/-- `TVG.get_critical_times`: collect `i.lower` and `i.upper` over the
atoms of every edge's contacts, then `sorted(list(set(...)))`. -/
def get_critical_times (G : TVG) : List XQ :=
  sortedDedup (G.edges.flatMap fun e =>
    e.2.2.flatMap fun a => [atomicLower a, atomicUpper a])

/-- The edge set of the snapshot `get_graph_at(t)` (the
`subgraph_view` keeps every node and filters edges by
`t in contacts`). -/
def edgesAt (G : TVG) (t : ℚ) : List (ℕ × ℕ × Interval) :=
  G.edges.filter fun e => memI e.2.2 t

/-! ## Time-Expanded Graph (`TVG.get_teg`) -/

/-- Membership of an extended point in an interval: portion opens every
bound at infinity, so `±P.inf` is never a member. -/
def memIX (I : Interval) (x : XQ) : Bool :=
  WithBot.recBotCoe false
    (fun y => WithTop.recTopCoe false (fun q => memI I q) y) x

/-- Adjacency of the snapshot at extended time `x`. -/
def adjAtX (G : TVG) (x : XQ) (u v : ℕ) : Bool :=
  G.edges.any fun e =>
    memIX e.2.2 x && ((e.1 == u && e.2.1 == v) || (e.1 == v && e.2.1 == u))

/-- Is there a walk of at most `d` hops from `u` to `v`? -/
def reachIn (n : ℕ) (adj : ℕ → ℕ → Bool) : ℕ → ℕ → ℕ → Bool
  | 0, u, v => u == v
  | d + 1, u, v =>
    u == v || (List.range n).any fun w => adj u w && reachIn n adj d w v

/-- Semantic model of `nx.floyd_warshall_numpy` on the unit-weight
snapshot: the least hop count (at most `n - 1` for a reachable pair),
`none` for the `inf` entries of the float matrix. -/
def floydDist (n : ℕ) (adj : ℕ → ℕ → Bool) (u v : ℕ) : Option ℕ :=
  (List.range n).find? fun d => reachIn n adj d u v

/-- `distance_matrix[i][j] <= limit` with float semantics
(`inf <= inf` is true, `inf <= finite` is false). -/
def distLe (d : Option ℕ) (limit : WithTop ℚ) : Bool :=
  match d with
  | none => WithTop.recTopCoe true (fun _ => false) limit
  | some k => WithTop.recTopCoe true (fun l => decide ((k : ℚ) ≤ l)) limit

/-- The directed graph produced by `get_teg`. -/
structure TEG where
  nodes : List (ℕ × XQ)
  edges : List ((ℕ × XQ) × (ℕ × XQ))

/-- The sample times actually used: the supplied ones (or the critical
times by default), filtered to `start <= t <= end`. -/
def tegSamples (G : TVG) (sample_times : Option (List XQ)) (s e : XQ) :
    List XQ :=
  (match sample_times with
    | some ts => ts
    | none => get_critical_times G).filter
    fun t => decide (s ≤ t) && decide (t ≤ e)

/-- One node `(v, t)` per graph node and sample time. -/
def tegNodes (G : TVG) (ts : List XQ) : List (ℕ × XQ) :=
  ts.flatMap fun t => (List.range G.n).map fun v => (v, t)

/-- For each consecutive pair of sample times, an edge
`(i, prev_t) → (j, t)` whenever the Floyd–Warshall distance from `i` to
`j` in the snapshot at `prev_t` is at most `limit`. -/
def tegEdges (G : TVG) (limit : WithTop ℚ) (ts : List XQ) :
    List ((ℕ × XQ) × (ℕ × XQ)) :=
  (ts.zip ts.tail).flatMap fun p =>
    (get_indices G.n G.n).filterMap fun ij =>
      if distLe (floydDist G.n (adjAtX G p.1) ij.1 ij.2) limit = true then
        some ((ij.1, p.1), (ij.2, p.2))
      else none

/-- `TVG.get_teg`: defaults `start`/`end` to the first/last critical time
(IndexError on an empty list is `none`), then builds the layered directed
graph over the filtered sample times. -/
def get_teg (G : TVG) (sample_times : Option (List XQ)) (limit : WithTop ℚ)
    (start stop : Option XQ) : Option TEG :=
  (match start with
    | some s => some s
    | none => (get_critical_times G)[0]?).bind fun s =>
  (match stop with
    | some e => some e
    | none => (get_critical_times G).getLast?).bind fun e =>
  some
    { nodes := tegNodes G (tegSamples G sample_times s e)
      edges := tegEdges G limit (tegSamples G sample_times s e) }

/-! ## Reeb graph (`TVG.get_reeb_graph`) -/

/-- The nodes adjacent to a set in the snapshot adjacency. -/
def nbrsF (adj : ℕ → ℕ → Bool) (n : ℕ) (S : Finset ℕ) : Finset ℕ :=
  (Finset.range n).filter fun v => ∃ u ∈ S, adj u v = true

/-- One step of component growth. -/
def expandF (adj : ℕ → ℕ → Bool) (n : ℕ) (S : Finset ℕ) : Finset ℕ :=
  S ∪ nbrsF adj n S

/-- The connected component of `v` (the node set `nx.connected_components`
places `v` in): `n` expansion steps saturate on an `n`-node graph. -/
def compF (adj : ℕ → ℕ → Bool) (n : ℕ) (v : ℕ) : Finset ℕ :=
  (fun S => expandF adj n S)^[n] {v}

/-- The list of connected components of the snapshot (one entry per
component, represented by its minimum node). -/
def componentsList (adj : ℕ → ℕ → Bool) (n : ℕ) : List (Finset ℕ) :=
  (List.range n).filterMap fun v =>
    if (compF adj n v).min = (v : WithTop ℕ) then some (compF adj n v) else none

/-- `sorted(list(c))[0]` for a cluster given as a Python list
(IndexError when empty). -/
def listMin? (c : List ℕ) : Option ℕ :=
  match c with
  | [] => none
  | x :: xs => some (xs.foldl min x)

/-- `min` of a cluster given as a Finset (components are nonempty). -/
def finsetMin? (c : Finset ℕ) : Option ℕ :=
  WithTop.recTopCoe none (fun v => some v) c.min

/-- Midpoint `t + (next - t) / 2` of two critical times; portion's `inf`
objects support no arithmetic, modelled as failure. -/
def xqMidpoint (a b : XQ) : Option XQ :=
  WithBot.recBotCoe none
    (fun y => WithTop.recTopCoe none
      (fun x => WithBot.recBotCoe none
        (fun y2 => WithTop.recTopCoe none
          (fun z => some (ratXQ (x + (z - x) / 2))) y2) b) y) a

/-- The undirected graph produced by `get_reeb_graph`: nodes keyed by
`(representative, column)` carrying the equivalence class. -/
structure ReebGraph where
  nodes : List ((ℕ × ℕ) × Finset ℕ)
  edges : List ((ℕ × ℕ) × (ℕ × ℕ))

/-- All unordered pairs of a list, in order
(`itertools.combinations(l, 2)`). -/
def listPairs : List α → List (α × α)
  | [] => []
  | x :: xs => (xs.map fun y => (x, y)) ++ listPairs xs

/-- The representative of each cluster of column `i`
(`sorted(list(c))[0]`; an empty supplied cluster raises IndexError),
paired with its equivalence class; the clusters are the supplied
(filtered) clusterings or the connected components of the snapshot. -/
def reebColumnNodes (G : TVG) (cl : Option (List (List (List ℕ))))
    (ts : List XQ) (i : ℕ) : Option (List ((ℕ × ℕ) × Finset ℕ)) :=
  match cl with
  | none =>
    (componentsList (adjAtX G (ts.getD i ⊥)) G.n).mapM fun c =>
      (finsetMin? c).map fun r => ((r, i), c)
  | some cl =>
    (cl.getD i []).mapM fun c =>
      (listMin? c).map fun r => ((r, i), c.toFinset)

/-- All node columns, concatenated in column order. -/
def reebNodes (G : TVG) (cl : Option (List (List (List ℕ))))
    (ts : List XQ) : Option (List ((ℕ × ℕ) × Finset ℕ)) :=
  ((List.range ts.length).mapM fun i => reebColumnNodes G cl ts i).map
    List.flatten

/-- For each consecutive pair of columns, every ordered pair of nodes
drawn from the two columns whose equivalence classes intersect. -/
def reebEdges (m : ℕ) (nodes : List ((ℕ × ℕ) × Finset ℕ)) :
    List ((ℕ × ℕ) × (ℕ × ℕ)) :=
  (List.range (m - 1)).flatMap fun i =>
    (listPairs (nodes.filter fun nd => nd.1.2 = i ∨ nd.1.2 = i + 1)).filterMap
      fun p =>
        if (p.1.2 ∩ p.2.2).Nonempty then some (p.1.1, p.2.1) else none

/-- `TVG.get_reeb_graph`: defaults `start`/`end` to the first/last
critical time (IndexError on an empty list is `none`), defaults the
sample times to the midpoints of consecutive critical times (failing on
portion's `inf` objects, and asserting that no clusterings were
supplied), checks the clusterings' length, filters both to
`[start, end]`, then builds the representative nodes and the
intersection edges. -/
def get_reeb_graph (G : TVG) (sample_times : Option (List XQ))
    (clusters_list : Option (List (List (List ℕ)))) (start stop : Option XQ) :
    Option ReebGraph :=
  (match start with
    | some s => some s
    | none => (get_critical_times G)[0]?).bind fun s =>
  (match stop with
    | some e => some e
    | none => (get_critical_times G).getLast?).bind fun e =>
  (match sample_times with
    | some ts => some ts
    | none =>
      if clusters_list.isSome then none
      else ((get_critical_times G).zip (get_critical_times G).tail).mapM
        fun (p : XQ × XQ) => xqMidpoint p.1 p.2).bind fun ts0 =>
  (match clusters_list with
    | none => some none
    | some cl =>
      if cl.length = ts0.length then
        some (some (((ts0.zip cl).filter fun (p : XQ × List (List ℕ)) =>
          decide (s ≤ p.1) && decide (p.1 ≤ e)).map Prod.snd))
      else none).bind fun cl =>
  (reebNodes G cl (ts0.filter fun t => decide (s ≤ t) && decide (t ≤ e))).bind
    fun nodes =>
  some
    { nodes := nodes
      edges := reebEdges
        (ts0.filter fun t => decide (s ≤ t) && decide (t ≤ e)).length nodes }

/-- A 2-by-2 matrix with no contacts off the diagonal: an edgeless
network. -/
def matNE : IntervalMatrix := ⟨2, 2, [[unboundedI, emptyI], [emptyI, unboundedI]], none⟩

/-! ## `contact_plan_to_matrix` (report_parser.py) -/

/-- `sorted(nodes, key=nodes.__getitem__)`: the node names sorted by
their integer ids. -/
def sortNodesByValue (nodes : List (String × ℕ)) : List String :=
  (nodes.mergeSort fun a b => a.2 ≤ b.2).map Prod.fst

/-- `contact_plan_to_matrix`: builds an n-by-n matrix, then runs
`matrix[(n, n)] = P.open(-P.inf, P.inf)` n times (the index `(n, n)` is
out of range), then unions `P.closed(rise, set)` into both mirror cells
for `i in range(0, n, 2)` over each edge's connection list (list
indexing out of range is IndexError, modelled as `none`). -/
def contact_plan_to_matrix? (nodes : List (String × ℕ))
    (edges : List ((ℕ × ℕ) × List ℚ)) : Option IntervalMatrix := do
  let m0 ← mkIntervalMatrix nodes.length nodes.length none
    (some (sortNodesByValue nodes))
  let m1 ← (List.range nodes.length).foldlM
    (fun m _ => IntervalMatrix.setCell? m nodes.length nodes.length unboundedI) m0
  edges.foldlM (fun m e =>
    ((List.range nodes.length).filter fun i => i % 2 == 0).foldlM (fun m i => do
      let rise ← e.2[i]?
      let sett ← e.2[i + 1]?
      let m2 ← IntervalMatrix.setCell? m e.1.1 e.1.2
        (unionI (m.cell e.1.1 e.1.2) (closedI rise sett))
      IntervalMatrix.setCell? m2 e.1.2 e.1.1
        (unionI (m2.cell e.1.2 e.1.1) (closedI rise sett))) m) m1

theorem mem_insertSD [LinearOrder α] (x a : α) (l : List α) :
    a ∈ insertSD x l ↔ a = x ∨ a ∈ l := by
  induction l with
  | nil => simp [insertSD]
  | cons y ys ih =>
    by_cases h1 : x < y
    · simp [insertSD, h1]
    · by_cases h2 : x = y
      · subst h2
        simp [insertSD, h1, List.mem_cons]
      · simp only [insertSD, if_neg h1, if_neg h2, List.mem_cons, ih]
        tauto

theorem sorted_insertSD [LinearOrder α] (x : α) (l : List α)
    (h : l.Sorted (· < ·)) : (insertSD x l).Sorted (· < ·) := by
  induction l with
  | nil => simp [insertSD]
  | cons y ys ih =>
    have hy := List.sorted_cons.mp h
    by_cases h1 : x < y
    · simp only [insertSD, if_pos h1]
      exact List.sorted_cons.mpr ⟨by
        intro b hb
        rcases List.mem_cons.mp hb with rfl | hb
        · exact h1
        · exact h1.trans (hy.1 b hb), h⟩
    · by_cases h2 : x = y
      · simpa [insertSD, h1, h2] using h
      · simp only [insertSD, if_neg h1, if_neg h2]
        refine List.sorted_cons.mpr ⟨?_, ih hy.2⟩
        intro b hb
        rcases (mem_insertSD x b ys).mp hb with rfl | hb
        · exact lt_of_le_of_ne (le_of_not_lt h1) (Ne.symm h2)
        · exact hy.1 b hb

theorem mem_sortedDedup [LinearOrder α] (l : List α) (a : α) :
    a ∈ sortedDedup l ↔ a ∈ l := by
  induction l with
  | nil => simp [sortedDedup]
  | cons x xs ih =>
    simp only [sortedDedup, List.foldr_cons] at *
    rw [mem_insertSD, ih, List.mem_cons]

theorem sorted_sortedDedup [LinearOrder α] (l : List α) :
    (sortedDedup l).Sorted (· < ·) := by
  induction l with
  | nil => simp [sortedDedup]
  | cons x xs ih => exact sorted_insertSD x _ ih

theorem SameSide.gt {t p e : ℚ} (h : SameSide t p e) : t < e ↔ p < e := by
  rcases h with ⟨h1, h2⟩
  constructor
  · intro ht
    by_contra hc
    push_neg at hc
    rcases eq_or_lt_of_le hc with h | h
    · have := h2.mpr h; linarith
    · have := h1.mpr h; linarith
  · intro hp
    by_contra hc
    push_neg at hc
    rcases eq_or_lt_of_le hc with h | h
    · have := h2.mp h; linarith
    · have := h1.mp h; linarith

theorem getLastD_cons_cons (x y d : ℚ) (l : List ℚ) :
    (x :: y :: l).getLastD d = (y :: l).getLastD d := by
  rw [List.getLastD_cons, List.getLastD_cons, List.getLastD_cons]

/-- A test point of the tail arrangement other than the below-everything
point is still a test point after consing a smaller head. -/
theorem mem_testPoints_cons {x y : ℚ} {rest' : List ℚ} {p : ℚ}
    (hp : p ∈ testPoints (y :: rest')) (hne : p ≠ y - 1) :
    p ∈ testPoints (x :: y :: rest') := by
  unfold testPoints at hp ⊢
  rcases List.mem_cons.mp hp with rfl | hp
  · exact absurd rfl hne
  · refine List.mem_cons.mpr (Or.inr ?_)
    rw [List.mem_append] at hp ⊢
    rcases hp with hp | hp
    · rw [List.mem_append] at hp ⊢
      rcases hp with hp | hp
      · exact Or.inl (Or.inl (List.mem_cons.mpr (Or.inr hp)))
      · refine Or.inl (Or.inr ?_)
        show p ∈ (x + y) / 2 :: midpts (y :: rest')
        exact List.mem_cons.mpr (Or.inr hp)
    · right
      rwa [getLastD_cons_cons]

/-- Every rational `t` has a test point of the sorted arrangement `S` on
the same side of every point of `S`. -/
theorem exists_testPoint (S : List ℚ) (hS : S.Sorted (· < ·)) (t : ℚ) :
    ∃ p ∈ testPoints S, ∀ e ∈ S, SameSide t p e := by
  induction S with
  | nil => exact ⟨0, by simp [testPoints], by simp⟩
  | cons x rest ih =>
    have hx := List.sorted_cons.mp hS
    have hge : ∀ e ∈ x :: rest, x ≤ e := by
      intro e he
      rcases List.mem_cons.mp he with rfl | he
      · exact le_refl _
      · exact le_of_lt (hx.1 e he)
    rcases lt_trichotomy t x with htx | rfl | hxt
    · -- t below the whole arrangement
      refine ⟨x - 1, by simp [testPoints], ?_⟩
      intro e he
      have hxe := hge e he
      constructor
      · constructor
        · intro h; linarith
        · intro h; linarith
      · constructor
        · intro h; linarith
        · intro h; linarith
    · -- t is the head itself
      exact ⟨t, by simp [testPoints], fun e _ => ⟨Iff.rfl, Iff.rfl⟩⟩
    · -- t above the head
      match rest, hS, ih with
      | [], _, _ =>
        refine ⟨x + 1, by simp [testPoints], ?_⟩
        intro e he
        rcases List.mem_cons.mp he with rfl | he
        · exact ⟨by constructor <;> intro h <;> linarith,
            by constructor <;> intro h <;> linarith⟩
        · simp at he
      | y :: rest', hS, ih =>
        have hxy : x < y := (List.sorted_cons.mp hS).1 y (List.mem_cons_self y rest')
        have hStail : (y :: rest').Sorted (· < ·) := (List.sorted_cons.mp hS).2
        have hgey : ∀ e ∈ y :: rest', y ≤ e := by
          intro e he
          rcases List.mem_cons.mp he with rfl | he
          · exact le_refl _
          · exact le_of_lt ((List.sorted_cons.mp hStail).1 e he)
        by_cases hty : t < y
        · -- t strictly between x and y: midpoint region
          have hmid1 : x < (x + y) / 2 := by linarith
          have hmid2 : (x + y) / 2 < y := by linarith
          refine ⟨(x + y) / 2, by simp [testPoints, midpts], ?_⟩
          intro e he
          rcases List.mem_cons.mp he with rfl | he
          · exact ⟨by constructor <;> intro h <;> linarith,
              by constructor <;> intro h <;> linarith⟩
          · have hye := hgey e he
            exact ⟨by constructor <;> intro h <;> linarith,
              by constructor <;> intro h <;> linarith⟩
        · -- t is at or beyond y: recurse into the tail
          push_neg at hty
          obtain ⟨p', hp'mem, hp'⟩ := ih hStail
          have hyp' : y ≤ p' := by
            have := hp' y (List.mem_cons_self y rest')
            rcases eq_or_lt_of_le hty with h | h
            · exact le_of_eq (this.2.mp h)
            · exact le_of_lt (this.1.mp h)
          refine ⟨p', mem_testPoints_cons hp'mem (by intro h; linarith), ?_⟩
          intro e he
          rcases List.mem_cons.mp he with rfl | he
          · have hxp' := lt_of_lt_of_le hxy hyp'
            exact ⟨by constructor <;> intro h <;> linarith,
              by constructor <;> intro h <;> linarith⟩
          · exact hp' e he

/-! ## Membership is determined by the side of each endpoint -/

theorem memA_congr (a : Atomic) {t p : ℚ}
    (h : ∀ e ∈ a.eps, SameSide t p e) : memA a t = memA a p := by
  obtain ⟨lo, hi⟩ := a
  have hlo : lowOk lo t = lowOk lo p := by
    match lo with
    | none => rfl
    | some (q, c) =>
      have hq : SameSide t p q := h q (by simp [Atomic.eps])
      have h1 : (q < t) = (q < p) := propext hq.1
      have h2 : (q = t) = (q = p) := propext hq.2
      simp [lowOk, h1, h2]
  have hhi : highOk hi t = highOk hi p := by
    match hi with
    | none => rfl
    | some (q, c) =>
      have hq : SameSide t p q := h q (by cases lo <;> simp [Atomic.eps])
      have h1 : (t < q) = (p < q) := propext hq.gt
      have h2 : (t = q) = (p = q) := propext (by rw [eq_comm, hq.2, eq_comm])
      simp [highOk, h1, h2]
  simp [memA, hlo, hhi]

theorem memI_congr (I : Interval) {t p : ℚ}
    (h : ∀ e ∈ I.eps, SameSide t p e) : memI I t = memI I p := by
  induction I with
  | nil => rfl
  | cons a as ih =>
    have ha : memA a t = memA a p :=
      memA_congr a fun e he => h e (by simp [Interval.eps, he])
    have has : memI as t = memI as p := by
      apply ih
      intro e he
      apply h e
      simp only [Interval.eps, List.flatMap_cons, List.mem_append]
      exact Or.inr (by simpa [Interval.eps] using he)
    simp [memI, List.any_cons] at *
    rw [ha, has]

theorem mem_epsArr_left {I J : Interval} {e : ℚ} (he : e ∈ I.eps) :
    e ∈ epsArr I J :=
  (mem_sortedDedup _ _).mpr (List.mem_append.mpr (Or.inl he))

theorem mem_epsArr_right {I J : Interval} {e : ℚ} (he : e ∈ J.eps) :
    e ∈ epsArr I J :=
  (mem_sortedDedup _ _).mpr (List.mem_append.mpr (Or.inr he))

theorem intervalEq_iff (I J : Interval) :
    intervalEq I J = true ↔ ∀ t : ℚ, memI I t = memI J t := by
  constructor
  · intro hall t
    obtain ⟨p, hpmem, hp⟩ :=
      exists_testPoint (epsArr I J) (sorted_sortedDedup _) t
    have hI : memI I t = memI I p :=
      memI_congr I fun e he => hp e (mem_epsArr_left he)
    have hJ : memI J t = memI J p :=
      memI_congr J fun e he => hp e (mem_epsArr_right he)
    rw [hI, hJ]
    exact beq_iff_eq.mp (List.all_eq_true.mp hall p hpmem)
  · intro h
    exact List.all_eq_true.mpr fun p _ => beq_iff_eq.mpr (h p)

theorem isSubset_iff (I J : Interval) :
    isSubset I J = true ↔ ∀ t : ℚ, memI I t = true → memI J t = true := by
  constructor
  · intro hall t ht
    obtain ⟨p, hpmem, hp⟩ :=
      exists_testPoint (epsArr I J) (sorted_sortedDedup _) t
    have hI : memI I t = memI I p :=
      memI_congr I fun e he => hp e (mem_epsArr_left he)
    have hJ : memI J t = memI J p :=
      memI_congr J fun e he => hp e (mem_epsArr_right he)
    have := List.all_eq_true.mp hall p hpmem
    rw [Bool.or_eq_true, Bool.not_eq_true'] at this
    rw [hJ]
    rcases this with h | h
    · rw [hI, h] at ht; exact absurd ht (by simp)
    · exact h
  · intro h
    apply List.all_eq_true.mpr
    intro p _
    rw [Bool.or_eq_true, Bool.not_eq_true']
    rcases hm : memI I p with _ | _
    · exact Or.inl rfl
    · exact Or.inr (h p hm)

theorem memI_unionI (I J : Interval) (t : ℚ) :
    memI (unionI I J) t = (memI I t || memI J t) := by
  simp [unionI, memI, List.any_append]

theorem lowOk_mono {q q' : ℚ} {c c' : Bool} (h : q < q') (t : ℚ)
    (h' : lowOk (some (q', c')) t = true) : lowOk (some (q, c)) t = true := by
  simp only [lowOk, Bool.or_eq_true, Bool.and_eq_true, decide_eq_true_eq] at h' ⊢
  rcases h' with h' | ⟨_, rfl⟩
  · exact Or.inl (by linarith)
  · exact Or.inl h

theorem highOk_mono {q q' : ℚ} {c c' : Bool} (h : q < q') (t : ℚ)
    (h' : highOk (some (q, c)) t = true) : highOk (some (q', c')) t = true := by
  simp only [highOk, Bool.or_eq_true, Bool.and_eq_true, decide_eq_true_eq] at h' ⊢
  rcases h' with h' | ⟨_, rfl⟩
  · exact Or.inl (by linarith)
  · exact Or.inl h

theorem lowOk_maxLB (b1 b2 : Bound) (t : ℚ) :
    lowOk (maxLB b1 b2) t = (lowOk b1 t && lowOk b2 t) := by
  match b1, b2 with
  | none, b2 => simp [maxLB, lowOk]
  | some (q, c), none => simp [maxLB, lowOk]
  | some (q, c), some (q', c') =>
    rcases lt_trichotomy q q' with h | h | h
    · have e : maxLB (some (q, c)) (some (q', c')) = some (q', c') := by
        simp [maxLB, h]
      rw [e, Bool.eq_iff_iff, Bool.and_eq_true]
      exact ⟨fun hh => ⟨lowOk_mono h t hh, hh⟩, fun hh => hh.2⟩
    · subst h
      have e : maxLB (some (q, c)) (some (q, c')) = some (q, c && c') := by
        simp [maxLB]
      rw [e, Bool.eq_iff_iff, Bool.and_eq_true]
      simp only [lowOk, Bool.or_eq_true, Bool.and_eq_true, decide_eq_true_eq]
      constructor
      · rintro (h' | ⟨⟨hc, hc'⟩, rfl⟩)
        · exact ⟨Or.inl h', Or.inl h'⟩
        · exact ⟨Or.inr ⟨hc, rfl⟩, Or.inr ⟨hc', rfl⟩⟩
      · rintro ⟨h1 | ⟨hc, rfl⟩, h2⟩
        · exact Or.inl h1
        · rcases h2 with h2 | ⟨hc', _⟩
          · exact absurd h2 (lt_irrefl _)
          · exact Or.inr ⟨⟨hc, hc'⟩, rfl⟩
    · have e : maxLB (some (q, c)) (some (q', c')) = some (q, c) := by
        simp [maxLB, asymm h, h]
      rw [e, Bool.eq_iff_iff, Bool.and_eq_true]
      exact ⟨fun hh => ⟨hh, lowOk_mono h t hh⟩, fun hh => hh.1⟩

theorem highOk_minUB (b1 b2 : Bound) (t : ℚ) :
    highOk (minUB b1 b2) t = (highOk b1 t && highOk b2 t) := by
  match b1, b2 with
  | none, b2 => simp [minUB, highOk]
  | some (q, c), none => simp [minUB, highOk]
  | some (q, c), some (q', c') =>
    rcases lt_trichotomy q q' with h | h | h
    · have e : minUB (some (q, c)) (some (q', c')) = some (q, c) := by
        simp [minUB, h]
      rw [e, Bool.eq_iff_iff, Bool.and_eq_true]
      exact ⟨fun hh => ⟨hh, highOk_mono h t hh⟩, fun hh => hh.1⟩
    · subst h
      have e : minUB (some (q, c)) (some (q, c')) = some (q, c && c') := by
        simp [minUB]
      rw [e, Bool.eq_iff_iff, Bool.and_eq_true]
      simp only [highOk, Bool.or_eq_true, Bool.and_eq_true, decide_eq_true_eq]
      constructor
      · rintro (h' | ⟨⟨hc, hc'⟩, rfl⟩)
        · exact ⟨Or.inl h', Or.inl h'⟩
        · exact ⟨Or.inr ⟨hc, rfl⟩, Or.inr ⟨hc', rfl⟩⟩
      · rintro ⟨h1 | ⟨hc, rfl⟩, h2⟩
        · exact Or.inl h1
        · rcases h2 with h2 | ⟨hc', _⟩
          · exact absurd h2 (lt_irrefl _)
          · exact Or.inr ⟨⟨hc, hc'⟩, rfl⟩
    · have e : minUB (some (q, c)) (some (q', c')) = some (q', c') := by
        simp [minUB, asymm h, h]
      rw [e, Bool.eq_iff_iff, Bool.and_eq_true]
      exact ⟨fun hh => ⟨highOk_mono h t hh, hh⟩, fun hh => hh.2⟩

theorem memA_interA (a b : Atomic) (t : ℚ) :
    memA (interA a b) t = (memA a t && memA b t) := by
  simp only [memA, interA, lowOk_maxLB, highOk_minUB]
  rw [Bool.eq_iff_iff]
  simp only [Bool.and_eq_true]
  tauto

theorem any_and_const (l : List α) (c : Bool) (f : α → Bool) :
    (l.any fun x => c && f x) = (c && l.any f) := by
  cases c <;> simp

theorem any_congr' (l : List α) (f g : α → Bool) (h : ∀ x ∈ l, f x = g x) :
    l.any f = l.any g := by
  induction l with
  | nil => rfl
  | cons x xs ih =>
    simp only [List.any_cons, h x (List.mem_cons_self x xs),
      ih fun y hy => h y (List.mem_cons_of_mem x hy)]

theorem memI_interI (I J : Interval) (t : ℚ) :
    memI (interI I J) t = (memI I t && memI J t) := by
  induction I with
  | nil => simp [interI, memI]
  | cons a as ih =>
    have hstep : memI (J.map (interA a)) t = (memA a t && memI J t) := by
      show (J.map (interA a)).any (memA · t) = _
      rw [List.any_map]
      have hc : List.any J ((memA · t) ∘ interA a)
          = List.any J fun b => memA a t && memA b t :=
        any_congr' J _ _ fun b _ => memA_interA a b t
      rw [hc]
      exact any_and_const J (memA a t) (memA · t)
    have hsplit : interI (a :: as) J = (J.map (interA a)) ++ interI as J := rfl
    have happ : memI ((J.map (interA a)) ++ interI as J) t
        = (memI (J.map (interA a)) t || memI (interI as J) t) := by
      simp [memI, List.any_append]
    have hcons : memI (a :: as) t = (memA a t || memI as t) := by
      simp [memI, List.any_cons]
    rw [hsplit, happ, hstep, ih, hcons]
    cases memA a t <;> cases memI as t <;> cases memI J t <;> rfl

theorem lowOk_flip (q : ℚ) (c : Bool) (t : ℚ) :
    lowOk (some (q, !c)) t = !highOk (some (q, c)) t := by
  rcases lt_trichotomy q t with h | h | h
  · have h1 : ¬t < q := by linarith
    have h2 : ¬t = q := by intro hh; rw [hh] at h; exact lt_irrefl _ h
    simp [lowOk, highOk, h, h1, h2]
  · subst h
    simp [lowOk, highOk, lt_irrefl]
  · have h1 : ¬q < t := by linarith
    have h2 : ¬q = t := by intro hh; rw [hh] at h; exact lt_irrefl _ h
    have h3 : t < q := h
    have h4 : ¬ t = q := by intro hh; rw [hh] at h; exact lt_irrefl _ h
    simp [lowOk, highOk, h1, h2, h3, h4]

theorem highOk_flip (q : ℚ) (c : Bool) (t : ℚ) :
    highOk (some (q, !c)) t = !lowOk (some (q, c)) t := by
  rcases lt_trichotomy q t with h | h | h
  · have h1 : ¬t < q := by linarith
    have h2 : ¬t = q := by intro hh; rw [hh] at h; exact lt_irrefl _ h
    have h3 : ¬q = t := by intro hh; rw [hh] at h; exact lt_irrefl _ h
    simp [lowOk, highOk, h, h1, h2, h3]
  · subst h
    simp [lowOk, highOk, lt_irrefl]
  · have h1 : ¬q < t := by linarith
    have h2 : ¬q = t := by intro hh; rw [hh] at h; exact lt_irrefl _ h
    simp [lowOk, highOk, h, h1, h2]

theorem memA_no_lo (hi : Bound) (t : ℚ) : memA ⟨none, hi⟩ t = highOk hi t := by
  simp [memA, lowOk]

theorem memA_no_hi (lo : Bound) (t : ℚ) : memA ⟨lo, none⟩ t = lowOk lo t := by
  simp [memA, highOk]

theorem memI_complA (a : Atomic) (t : ℚ) : memI (complA a) t = !memA a t := by
  obtain ⟨lo, hi⟩ := a
  match lo, hi with
  | none, none =>
    simp [complA, memI, memA, lowOk, highOk]
  | none, some (q, c) =>
    show memI [⟨some (q, !c), none⟩] t = !memA ⟨none, some (q, c)⟩ t
    have h1 : memI [⟨some (q, !c), none⟩] t = lowOk (some (q, !c)) t := by
      simp [memI, memA_no_hi]
    rw [h1, lowOk_flip, memA_no_lo]
  | some (q, c), none =>
    show memI [⟨none, some (q, !c)⟩] t = !memA ⟨some (q, c), none⟩ t
    have h1 : memI [⟨none, some (q, !c)⟩] t = highOk (some (q, !c)) t := by
      simp [memI, memA_no_lo]
    rw [h1, highOk_flip, memA_no_hi]
  | some (q, c), some (q', c') =>
    show memI [⟨none, some (q, !c)⟩, ⟨some (q', !c'), none⟩] t
      = !memA ⟨some (q, c), some (q', c')⟩ t
    have h1 : memI [⟨none, some (q, !c)⟩, ⟨some (q', !c'), none⟩] t
        = (highOk (some (q, !c)) t || lowOk (some (q', !c')) t) := by
      simp [memI, memA_no_lo, memA_no_hi]
    rw [h1, highOk_flip, lowOk_flip]
    have h2 : memA ⟨some (q, c), some (q', c')⟩ t
        = (lowOk (some (q, c)) t && highOk (some (q', c')) t) := rfl
    rw [h2]
    cases lowOk (some (q, c)) t <;> cases highOk (some (q', c')) t <;> rfl

theorem memI_unboundedI (t : ℚ) : memI unboundedI t = true := rfl

theorem memI_foldl_compl (L : List Atomic) (acc : Interval) (t : ℚ) :
    memI (L.foldl (fun acc a => interI acc (complA a)) acc) t
      = (memI acc t && L.all fun a => !memA a t) := by
  induction L generalizing acc with
  | nil => simp
  | cons a as ih =>
    rw [List.foldl_cons, ih, memI_interI, memI_complA, List.all_cons,
      Bool.and_assoc]

theorem memI_complI (I : Interval) (t : ℚ) :
    memI (complI I) t = !memI I t := by
  rw [complI, memI_foldl_compl, memI_unboundedI, Bool.true_and]
  induction I with
  | nil => rfl
  | cons a as ih => rw [List.all_cons, memI, List.any_cons, ih]; cases memA a t <;> simp [memI]

theorem mem_get_indices (rows columns : ℕ) (p : ℕ × ℕ) :
    p ∈ get_indices rows columns ↔ p.1 < rows ∧ p.2 < columns := by
  obtain ⟨i, j⟩ := p
  simp only [get_indices, List.mem_flatMap, List.mem_map, List.mem_range]
  constructor
  · rintro ⟨a, ha, b, hb, h⟩
    obtain ⟨rfl, rfl⟩ := Prod.mk.injEq .. ▸ (Prod.mk.injEq a b i j ▸ h)
    exact ⟨ha, hb⟩
  · rintro ⟨hi, hj⟩
    exact ⟨i, hi, j, hj, rfl⟩

theorem getD_map_range (m : ℕ) (f : ℕ → α) (i : ℕ) (d : α) :
    ((List.range m).map f).getD i d = if i < m then f i else d := by
  by_cases h : i < m
  · rw [List.getD_eq_getElem _ _ (by simpa using h)]
    simp [h]
  · rw [List.getD_eq_default _ _ (by simpa using not_lt.mp h)]
    simp [h]

theorem cell_gridOf (m n : ℕ) (f : ℕ → ℕ → Interval) (lab : Option (List String))
    (i j : ℕ) :
    (IntervalMatrix.mk m n (gridOf m n f) lab).cell i j
      = if i < m ∧ j < n then f i j else emptyI := by
  unfold IntervalMatrix.cell gridOf
  simp only
  rw [getD_map_range]
  by_cases hi : i < m
  · rw [if_pos hi, getD_map_range]
    by_cases hj : j < n
    · rw [if_pos hj, if_pos ⟨hi, hj⟩]
    · rw [if_neg hj, if_neg (by tauto)]
  · rw [if_neg hi, if_neg (by tauto)]
    simp

theorem WF_gridOf (m n : ℕ) (f : ℕ → ℕ → Interval) :
    (IntervalMatrix.mk m n (gridOf m n f) none).WF := by
  refine ⟨by simp [gridOf], ?_, by simp⟩
  intro row hrow
  simp only [gridOf, List.mem_map] at hrow
  obtain ⟨i, _, rfl⟩ := hrow
  simp

/-! ## Semantic characterizations of the matrix operations -/

theorem matrixEq_iff (A B : IntervalMatrix) :
    matrixEq A B = true ↔
      A.dim_col = B.dim_col ∧ A.dim_row = B.dim_row ∧
        ∀ i j, i < A.dim_row → j < A.dim_col →
          ∀ t, memI (A.cell i j) t = memI (B.cell i j) t := by
  unfold matrixEq
  by_cases h : A.dim_col ≠ B.dim_col ∨ A.dim_row ≠ B.dim_row
  · rw [if_pos h]
    constructor
    · intro hh; cases hh
    · rintro ⟨h1, h2, _⟩
      rcases h with h | h
      · exact absurd h1 h
      · exact absurd h2 h
  · rw [if_neg h]
    push_neg at h
    rw [List.all_eq_true]
    constructor
    · intro hall
      refine ⟨h.1, h.2, ?_⟩
      intro i j hi hj t
      have := hall (i, j) ((mem_get_indices _ _ _).mpr ⟨hi, hj⟩)
      exact (intervalEq_iff _ _).mp this t
    · rintro ⟨_, _, hcell⟩ ij hij
      obtain ⟨hi, hj⟩ := (mem_get_indices _ _ _).mp hij
      exact (intervalEq_iff _ _).mpr (hcell ij.1 ij.2 hi hj)

theorem mcontains_iff (A B : IntervalMatrix) :
    mcontains A B = true ↔
      A.dim_col = B.dim_col ∧ A.dim_row = B.dim_row ∧
        ∀ i j, i < A.dim_row → j < A.dim_col →
          ∀ t, memI (B.cell i j) t = true → memI (A.cell i j) t = true := by
  unfold mcontains
  by_cases h : A.dim_col ≠ B.dim_col ∨ A.dim_row ≠ B.dim_row
  · rw [if_pos h]
    constructor
    · intro hh; cases hh
    · rintro ⟨h1, h2, _⟩
      rcases h with h | h
      · exact absurd h1 h
      · exact absurd h2 h
  · rw [if_neg h]
    push_neg at h
    rw [List.all_eq_true]
    constructor
    · intro hall
      refine ⟨h.1, h.2, ?_⟩
      intro i j hi hj
      have := hall (i, j) ((mem_get_indices _ _ _).mpr ⟨hi, hj⟩)
      exact (isSubset_iff _ _).mp this
    · rintro ⟨_, _, hcell⟩ ij hij
      obtain ⟨hi, hj⟩ := (mem_get_indices _ _ _).mp hij
      exact (isSubset_iff _ _).mpr (hcell ij.1 ij.2 hi hj)

theorem memI_emptyI (t : ℚ) : memI emptyI t = false := rfl

theorem cell_maddT (A B : IntervalMatrix) {i j : ℕ}
    (hi : i < A.dim_row) (hj : j < A.dim_col) :
    (maddT A B).cell i j = unionI (A.cell i j) (B.cell i j) := by
  unfold maddT
  rw [cell_gridOf, if_pos ⟨hi, hj⟩]

theorem cell_minvert (A : IntervalMatrix) {i j : ℕ}
    (hi : i < A.dim_row) (hj : j < A.dim_col) :
    (minvert A).cell i j = complI (A.cell i j) := by
  unfold minvert
  rw [cell_gridOf, if_pos ⟨hi, hj⟩]

theorem memI_foldl_union (L : List α) (g : α → Interval) (acc : Interval) (t : ℚ) :
    memI (L.foldl (fun a x => unionI a (g x)) acc) t
      = (memI acc t || L.any fun x => memI (g x) t) := by
  induction L generalizing acc with
  | nil => simp
  | cons x xs ih =>
    rw [List.foldl_cons, ih, memI_unionI, List.any_cons, Bool.or_assoc]

theorem mem_cell_mmulT (A B : IntervalMatrix) {i j : ℕ}
    (hi : i < A.dim_row) (hj : j < B.dim_col) (t : ℚ) :
    memI ((mmulT A B).cell i j) t
      = (List.range A.dim_col).any fun k =>
          memI (A.cell i k) t && memI (B.cell k j) t := by
  unfold mmulT
  rw [cell_gridOf, if_pos ⟨hi, hj⟩, memI_foldl_union, memI_emptyI, Bool.false_or]
  exact any_congr' _ _ _ fun k _ => memI_interI (A.cell i k) (B.cell k j) t

theorem mem_cell_identity (m : ℕ) {i j : ℕ} (hi : i < m) (hj : j < m) (t : ℚ) :
    memI ((identity_matrix m).cell i j) t = decide (i = j) := by
  unfold identity_matrix
  rw [cell_gridOf, if_pos ⟨hi, hj⟩]
  by_cases h : i = j
  · simp [h, memI_unboundedI]
  · simp [h, memI_emptyI]

theorem dims_maddT (A B : IntervalMatrix) :
    (maddT A B).dim_row = A.dim_row ∧ (maddT A B).dim_col = A.dim_col :=
  ⟨rfl, rfl⟩

theorem dims_foldl_maddT (xs : List IntervalMatrix) (x : IntervalMatrix) :
    (xs.foldl maddT x).dim_row = x.dim_row ∧
      (xs.foldl maddT x).dim_col = x.dim_col := by
  induction xs generalizing x with
  | nil => exact ⟨rfl, rfl⟩
  | cons y ys ih => exact (ih (maddT x y))

theorem mem_cell_foldl_maddT (xs : List IntervalMatrix) (x : IntervalMatrix)
    {i j : ℕ} (hi : i < x.dim_row) (hj : j < x.dim_col) (t : ℚ) :
    memI ((xs.foldl maddT x).cell i j) t
      = (memI (x.cell i j) t || xs.any fun y => memI (y.cell i j) t) := by
  induction xs generalizing x with
  | nil => simp
  | cons y ys ih =>
    rw [List.foldl_cons, ih (maddT x y) hi hj, cell_maddT x y hi hj,
      memI_unionI, List.any_cons, Bool.or_assoc]

theorem bmul_congr {n : ℕ} {f f' g g' : ℕ → ℕ → Bool}
    (hf : BEqOn n f f') (hg : BEqOn n g g') {i j : ℕ}
    (hi : i < n) (hj : j < n) : bmul n f g i j = bmul n f' g' i j := by
  unfold bmul
  apply any_congr'
  intro k hk
  rw [List.mem_range] at hk
  rw [hf i k hi hk, hg k j hk hj]

theorem bpowL_congr {n : ℕ} {f g : ℕ → ℕ → Bool} (h : BEqOn n f g) (m : ℕ) :
    BEqOn n (bpowL n f m) (bpowL n g m) := by
  induction m with
  | zero => intro i j _ _; rfl
  | succ m ih =>
    intro i j hi hj
    exact bmul_congr h ih hi hj

theorem bmul_assoc (n : ℕ) (f g h : ℕ → ℕ → Bool) (i j : ℕ) :
    bmul n (bmul n f g) h i j = bmul n f (bmul n g h) i j := by
  unfold bmul
  rw [Bool.eq_iff_iff]
  simp only [List.any_eq_true, Bool.and_eq_true, List.mem_range]
  constructor
  · rintro ⟨k, hk, ⟨l, hl, hf, hg⟩, hh⟩
    exact ⟨l, hl, hf, k, hk, hg, hh⟩
  · rintro ⟨l, hl, hf, k, hk, hg, hh⟩
    exact ⟨k, hk, ⟨l, hl, hf, hg⟩, hh⟩

theorem bpowL_double (n : ℕ) (b : ℕ → ℕ → Bool) (l : ℕ) :
    BEqOn n (bpowL n (bmul n b b) l) (bpowL n b (2 * l)) := by
  induction l with
  | zero => intro i j _ _; rfl
  | succ l ih =>
    intro i j hi hj
    have h1 : bpowL n (bmul n b b) (l + 1) i j
        = bmul n (bmul n b b) (bpowL n (bmul n b b) l) i j := rfl
    rw [h1, bmul_congr (fun _ _ _ _ => rfl) ih hi hj, bmul_assoc]
    have h2 : bmul n b (bmul n b (bpowL n b (2 * l))) i j
        = bmul n b (bpowL n b (2 * l + 1)) i j := rfl
    rw [h2]
    have h3 : bmul n b (bpowL n b (2 * l + 1)) i j
        = bpowL n b (2 * l + 2) i j := rfl
    rw [h3]
    have h4 : 2 * l + 2 = 2 * (l + 1) := by omega
    rw [h4]

theorem mpowT_dims (M : IntervalMatrix) (m : ℕ) :
    (mpowT M m).dim_row = M.dim_row ∧ (mpowT M m).dim_col = M.dim_row := by
  induction m using Nat.strong_induction_on generalizing M with
  | _ m ih =>
    rw [mpowT]
    by_cases h0 : m = 0
    · rw [if_pos h0]
      exact ⟨rfl, rfl⟩
    · rw [if_neg h0]
      by_cases he : m % 2 = 0
      · rw [if_pos he]
        have := ih (m / 2) (Nat.div_lt_self (Nat.pos_of_ne_zero h0) one_lt_two)
          (mmulT M M)
        exact ⟨this.1, this.2⟩
      · rw [if_neg he]
        have := ih ((m - 1) / 2)
          (lt_of_le_of_lt (Nat.div_le_self _ _)
            (Nat.sub_lt (Nat.pos_of_ne_zero h0) one_pos))
          (mmulT M M)
        exact ⟨rfl, this.2⟩

/-- Membership in the cells of `__pow__` is the left-iterated boolean
power of the membership matrix. -/
theorem mem_cell_mpowT (M : IntervalMatrix) (h : M.dim_row = M.dim_col)
    (m : ℕ) (t : ℚ) :
    ∀ i j, i < M.dim_row → j < M.dim_row →
      memI ((mpowT M m).cell i j) t
        = bpowL M.dim_row (fun a b => memI (M.cell a b) t) m i j := by
  induction m using Nat.strong_induction_on generalizing M with
  | _ m ih =>
    intro i j hi hj
    rw [mpowT]
    by_cases h0 : m = 0
    · rw [if_pos h0, h0]
      exact mem_cell_identity M.dim_row hi hj t
    · have hsq : (mmulT M M).dim_row = (mmulT M M).dim_col := h
      have hMM : BEqOn M.dim_row
          (fun a b => memI ((mmulT M M).cell a b) t)
          (bmul M.dim_row (fun a b => memI (M.cell a b) t)
            (fun a b => memI (M.cell a b) t)) := by
        intro a b ha hb
        show memI ((mmulT M M).cell a b) t = _
        rw [mem_cell_mmulT M M ha (by rw [h] at hb; exact hb) t]
        unfold bmul
        rw [← h]
      rw [if_neg h0]
      by_cases he : m % 2 = 0
      · rw [if_pos he]
        have hrec : memI ((mpowT (mmulT M M) (m / 2)).cell i j) t
            = bpowL M.dim_row (fun a b => memI ((mmulT M M).cell a b) t) (m / 2) i j :=
          ih (m / 2) (Nat.div_lt_self (Nat.pos_of_ne_zero h0) one_lt_two)
            (mmulT M M) hsq i j hi hj
        rw [hrec]
        rw [bpowL_congr hMM (m / 2) i j hi hj]
        rw [bpowL_double M.dim_row (fun a b => memI (M.cell a b) t) (m / 2) i j hi hj]
        have h4 : 2 * (m / 2) = m := by omega
        rw [h4]
      · rw [if_neg he]
        have hdims := mpowT_dims (mmulT M M) ((m - 1) / 2)
        rw [mem_cell_mmulT M (mpowT (mmulT M M) ((m - 1) / 2)) hi
          (by rw [hdims.2]; exact hj) t]
        have hinner : ∀ k, k < M.dim_row →
            memI ((mpowT (mmulT M M) ((m - 1) / 2)).cell k j) t
              = bpowL M.dim_row (fun a b => memI (M.cell a b) t) (m - 1) k j := by
          intro k hk
          have hrec : memI ((mpowT (mmulT M M) ((m - 1) / 2)).cell k j) t
              = bpowL M.dim_row (fun a b => memI ((mmulT M M).cell a b) t)
                  ((m - 1) / 2) k j :=
            ih ((m - 1) / 2)
              (lt_of_le_of_lt (Nat.div_le_self _ _)
                (Nat.sub_lt (Nat.pos_of_ne_zero h0) one_pos))
              (mmulT M M) hsq k j hk hj
          rw [hrec, bpowL_congr hMM ((m - 1) / 2) k j hk hj,
            bpowL_double M.dim_row _ ((m - 1) / 2) k j hk hj]
          have h4 : 2 * ((m - 1) / 2) = m - 1 := by omega
          rw [h4]
        have hfin : ((List.range M.dim_col).any fun k =>
              memI (M.cell i k) t && memI ((mpowT (mmulT M M) ((m - 1) / 2)).cell k j) t)
            = bmul M.dim_row (fun a b => memI (M.cell a b) t)
                (bpowL M.dim_row (fun a b => memI (M.cell a b) t) (m - 1)) i j := by
          rw [← h]
          apply any_congr'
          intro k hk
          rw [List.mem_range] at hk
          rw [hinner k hk]
        rw [hfin]
        have hstep : bmul M.dim_row (fun a b => memI (M.cell a b) t)
              (bpowL M.dim_row (fun a b => memI (M.cell a b) t) (m - 1)) i j
            = bpowL M.dim_row (fun a b => memI (M.cell a b) t) (m - 1 + 1) i j := rfl
        rw [hstep]
        have h4 : m - 1 + 1 = m := by omega
        rw [h4]

theorem mpowL_dims (M : IntervalMatrix) (m : ℕ) :
    (mpowL M m).dim_row = M.dim_row ∧ (mpowL M m).dim_col = M.dim_row := by
  cases m with
  | zero => exact ⟨rfl, rfl⟩
  | succ m =>
    refine ⟨rfl, ?_⟩
    show (mpowL M m).dim_col = M.dim_row
    exact (mpowL_dims M m).2

theorem mem_cell_mpowL (M : IntervalMatrix) (h : M.dim_row = M.dim_col)
    (m : ℕ) (t : ℚ) :
    ∀ i j, i < M.dim_row → j < M.dim_row →
      memI ((mpowL M m).cell i j) t
        = bpowL M.dim_row (fun a b => memI (M.cell a b) t) m i j := by
  induction m with
  | zero => intro i j hi hj; exact mem_cell_identity M.dim_row hi hj t
  | succ m ih =>
    intro i j hi hj
    show memI ((mmulT M (mpowL M m)).cell i j) t = _
    rw [mem_cell_mmulT M (mpowL M m) hi (by rw [(mpowL_dims M m).2]; exact hj) t]
    have : ((List.range M.dim_col).any fun k =>
          memI (M.cell i k) t && memI ((mpowL M m).cell k j) t)
        = bmul M.dim_row (fun a b => memI (M.cell a b) t)
            (bpowL M.dim_row (fun a b => memI (M.cell a b) t) m) i j := by
      rw [← h]
      apply any_congr'
      intro k hk
      rw [List.mem_range] at hk
      rw [ih k j hk hj]
    rw [this]
    rfl

theorem cumMats_eq (M : IntervalMatrix) (k : ℕ) :
    cumMats M k = (List.range (k + 1)).map (mpowL M) := by
  induction k with
  | zero => rfl
  | succ k ih =>
    show cumMats M k ++ [mmulT M ((cumMats M k).getLastD (identity_matrix M.dim_row))]
      = _
    rw [ih]
    have hlast : ((List.range (k + 1)).map (mpowL M)).getLastD (identity_matrix M.dim_row)
        = mpowL M k := by
      rw [List.range_succ, List.map_append]
      simp
    rw [hlast]
    have : mmulT M (mpowL M k) = mpowL M (k + 1) := rfl
    rw [this, List.range_succ (n := k + 1), List.map_append]
    rfl

theorem cumMats_decomp (M : IntervalMatrix) (k : ℕ) :
    cumMats M k = identity_matrix M.dim_row
      :: ((List.range k).map fun m => mpowL M (m + 1)) := by
  rw [cumMats_eq, List.range_succ_eq_map, List.map_cons, List.map_map]
  rfl

theorem get_k_cumulant_some (M : IntervalMatrix) (h : M.dim_row = M.dim_col)
    (k : ℕ) :
    get_k_cumulant? M k
      = some (((List.range k).map fun m => mpowL M (m + 1)).foldl maddT
          (identity_matrix M.dim_row)) := by
  unfold get_k_cumulant?
  rw [if_neg (fun hc => hc h), cumMats_decomp]

theorem any_map' (l : List α) (f : α → β) (p : β → Bool) :
    (l.map f).any p = l.any fun x => p (f x) := by
  induction l with
  | nil => rfl
  | cons x xs ih => simp only [List.map_cons, List.any_cons, ih]

theorem any_range_succ (k : ℕ) (f : ℕ → Bool) :
    (List.range (k + 1)).any f = (f 0 || (List.range k).any fun m => f (m + 1)) := by
  rw [List.range_succ_eq_map, List.any_cons, any_map']

theorem cumT_dims (M : IntervalMatrix) (k : ℕ) :
    (cumT M k).dim_row = M.dim_row ∧ (cumT M k).dim_col = M.dim_row :=
  dims_foldl_maddT _ _

theorem mem_cell_cumT (M : IntervalMatrix) (h : M.dim_row = M.dim_col) (k : ℕ)
    {i j : ℕ} (hi : i < M.dim_row) (hj : j < M.dim_row) (t : ℚ) :
    memI ((cumT M k).cell i j) t
      = (List.range (k + 1)).any fun m =>
          bpowL M.dim_row (fun a b => memI (M.cell a b) t) m i j := by
  unfold cumT
  rw [mem_cell_foldl_maddT ((List.range k).map fun m => mpowL M (m + 1))
      (identity_matrix M.dim_row)
      (show i < (identity_matrix M.dim_row).dim_row from hi)
      (show j < (identity_matrix M.dim_row).dim_col from hj),
    any_map', mem_cell_identity M.dim_row hi hj]
  rw [any_congr' _ _ _ fun m _ => mem_cell_mpowL M h (m + 1) t i j hi hj,
    any_range_succ]
  rfl

theorem sumPowers_decomp (M : IntervalMatrix) (k : ℕ) :
    sumPowers M k = ((List.range k).map fun m => mpowT M (m + 1)).foldl maddT
      (mpowT M 0) := by
  unfold sumPowers
  rw [List.range_succ_eq_map, List.map_cons, List.map_map]
  rfl

theorem sumPowers_dims (M : IntervalMatrix) (k : ℕ) :
    (sumPowers M k).dim_row = M.dim_row ∧ (sumPowers M k).dim_col = M.dim_row := by
  rw [sumPowers_decomp]
  have h0 := mpowT_dims M 0
  have := dims_foldl_maddT ((List.range k).map fun m => mpowT M (m + 1)) (mpowT M 0)
  exact ⟨this.1.trans h0.1, this.2.trans h0.2⟩

theorem mem_cell_sumPowers (M : IntervalMatrix) (h : M.dim_row = M.dim_col)
    (k : ℕ) {i j : ℕ} (hi : i < M.dim_row) (hj : j < M.dim_row) (t : ℚ) :
    memI ((sumPowers M k).cell i j) t
      = (List.range (k + 1)).any fun m =>
          bpowL M.dim_row (fun a b => memI (M.cell a b) t) m i j := by
  rw [sumPowers_decomp]
  have h0 := mpowT_dims M 0
  rw [mem_cell_foldl_maddT ((List.range k).map fun m => mpowT M (m + 1))
      (mpowT M 0) (by rw [h0.1]; exact hi) (by rw [h0.2]; exact hj),
    any_map', mem_cell_mpowT M h 0 t i j hi hj]
  rw [any_congr' _ _ _ fun m _ => mem_cell_mpowT M h (m + 1) t i j hi hj,
    any_range_succ]

theorem matrixEq_refl (A : IntervalMatrix) : matrixEq A A = true :=
  (matrixEq_iff A A).mpr ⟨rfl, rfl, fun _ _ _ _ _ => rfl⟩

/-! ## Transpose -/

theorem foldl_min_const (l : List ℕ) (n : ℕ) (h : ∀ x ∈ l, x = n) :
    l.foldl min n = n := by
  induction l with
  | nil => rfl
  | cons x xs ih =>
    rw [List.foldl_cons, h x (List.mem_cons_self x xs), min_self]
    exact ih fun y hy => h y (List.mem_cons_of_mem x hy)

theorem minRowLen_eq (a : List (List Interval)) (n : ℕ)
    (h : ∀ row ∈ a, row.length = n) (hne : a ≠ []) : minRowLen a = n := by
  match a with
  | [] => exact absurd rfl hne
  | r :: rs =>
    unfold minRowLen
    simp only [List.map_cons]
    rw [h r (List.mem_cons_self r rs)]
    apply foldl_min_const
    intro x hx
    rw [List.mem_map] at hx
    obtain ⟨row, hrow, rfl⟩ := hx
    exact h row (List.mem_cons_of_mem r hrow)

theorem getD_map_lt (l : List α) (f : α → β) (i : ℕ) (d : β) (dflt : α)
    (h : i < l.length) : (l.map f).getD i d = f (l.getD i dflt) := by
  rw [List.getD_eq_getElem _ _ (by simpa using h), List.getElem_map,
    List.getD_eq_getElem _ _ h]

theorem zipTranspose_shape (M : IntervalMatrix) (hWF : M.WF)
    (hsq : M.dim_row = M.dim_col) :
    (zipTranspose M.array).length = M.dim_row ∧
      ∀ row ∈ zipTranspose M.array, row.length = M.dim_col := by
  obtain ⟨hlen, hrows, _⟩ := hWF
  match ha : M.array with
  | [] =>
    have h0 : M.dim_row = 0 := by rw [← hlen, ha]; rfl
    constructor
    · rw [show zipTranspose ([] : List (List Interval)) = [] from rfl, h0]
      rfl
    · intro row hrow
      simp [zipTranspose] at hrow
  | r :: rs =>
    have hmin : minRowLen (r :: rs) = M.dim_col := by
      apply minRowLen_eq
      · intro row hrow; exact hrows row (ha ▸ hrow)
      · simp
    have hz : zipTranspose (r :: rs)
        = (List.range (minRowLen (r :: rs))).map
            fun j => (r :: rs).map fun row => row.getD j emptyI := rfl
    constructor
    · rw [hz, List.length_map, List.length_range, hmin, hsq]
    · intro row hrow
      rw [hz, List.mem_map] at hrow
      obtain ⟨j, _, rfl⟩ := hrow
      rw [List.length_map]
      have : (r :: rs).length = M.dim_row := by rw [← hlen, ha]
      rw [this, hsq]

theorem get_transpose_some (M : IntervalMatrix) (hWF : M.WF)
    (hsq : M.dim_row = M.dim_col) :
    get_transpose? M = some (transposeVal M) := by
  obtain ⟨hlen, hall⟩ := zipTranspose_shape M hWF hsq
  unfold get_transpose? mkIntervalMatrix
  rw [if_pos]
  · rfl
  · simp only [Bool.and_eq_true, beq_iff_eq, List.all_eq_true]
    exact ⟨⟨trivial, hlen⟩, fun row hrow => hall row hrow⟩

theorem transposeVal_WF (M : IntervalMatrix) (hWF : M.WF)
    (hsq : M.dim_row = M.dim_col) : (transposeVal M).WF := by
  obtain ⟨hlen, hall⟩ := zipTranspose_shape M hWF hsq
  exact ⟨hlen, hall, by intro ls h; cases h⟩

theorem cell_transposeVal (M : IntervalMatrix) (hWF : M.WF)
    (hsq : M.dim_row = M.dim_col) {i j : ℕ}
    (hi : i < M.dim_row) (hj : j < M.dim_col) :
    (transposeVal M).cell j i = M.cell i j := by
  obtain ⟨hlen, hrows, _⟩ := hWF
  match ha : M.array with
  | [] =>
    exfalso
    have h0 : M.dim_row = 0 := by rw [← hlen, ha]; rfl
    rw [h0] at hi
    exact Nat.not_lt_zero i hi
  | r :: rs =>
    have hmin : minRowLen (r :: rs) = M.dim_col := by
      apply minRowLen_eq
      · intro row hrow; exact hrows row (ha ▸ hrow)
      · simp
    show ((zipTranspose M.array).getD j []).getD i emptyI = M.cell i j
    rw [ha]
    have hz : zipTranspose (r :: rs)
        = (List.range (minRowLen (r :: rs))).map
            fun j => (r :: rs).map fun row => row.getD j emptyI := rfl
    rw [hz, getD_map_range, if_pos (by rw [hmin]; exact hj)]
    have hlr : i < (r :: rs).length := by
      rw [show (r :: rs).length = M.array.length from by rw [ha], hlen]
      exact hi
    rw [getD_map_lt _ _ _ _ [] hlr]
    show (((r :: rs).getD i []).getD j emptyI) = M.cell i j
    unfold IntervalMatrix.cell
    rw [ha]

theorem is_symmetric_iff (M : IntervalMatrix) :
    is_symmetric M = true ↔ M.dim_row = M.dim_col ∧
      ∀ i j, i < M.dim_row → j < M.dim_col → j < i →
        ∀ t, memI (M.cell i j) t = memI (M.cell j i) t := by
  unfold is_symmetric
  by_cases h : M.dim_row ≠ M.dim_col
  · rw [if_pos h]
    constructor
    · intro hh; cases hh
    · rintro ⟨h1, _⟩; exact absurd h1 h
  · rw [if_neg h]
    push_neg at h
    rw [List.all_eq_true]
    constructor
    · intro hall
      refine ⟨h, ?_⟩
      intro i j hi hj hlt t
      have := hall (i, j) (List.mem_filter.mpr
        ⟨(mem_get_indices _ _ _).mpr ⟨hi, hj⟩, by simpa using hlt⟩)
      exact (intervalEq_iff _ _).mp this t
    · rintro ⟨_, hsym⟩ ij hij
      rw [List.mem_filter] at hij
      obtain ⟨hmem, hlt⟩ := hij
      obtain ⟨hi, hj⟩ := (mem_get_indices _ _ _).mp hmem
      exact (intervalEq_iff _ _).mpr (hsym ij.1 ij.2 hi hj (by simpa using hlt))

/-! ## `get_adjacency_matrix_at` (the boolean snapshot of a matrix) -/

theorem getD_set_self (l : List α) (i : ℕ) (a d : α) (h : i < l.length) :
    (l.set i a).getD i d = a := by
  induction l generalizing i with
  | nil => simp at h
  | cons x xs ih =>
    cases i with
    | zero => rfl
    | succ i => exact ih i (by simpa using h)

theorem getD_set_ne (l : List α) (i j : ℕ) (a d : α) (h : i ≠ j) :
    (l.set i a).getD j d = l.getD j d := by
  induction l generalizing i j with
  | nil => simp
  | cons x xs ih =>
    cases i with
    | zero =>
      cases j with
      | zero => exact absurd rfl h
      | succ j => rfl
    | succ i =>
      cases j with
      | zero => rfl
      | succ j => exact ih i j fun hh => h (by rw [hh])

theorem mem_set_cases (l : List α) (i : ℕ) (a : α) :
    ∀ x ∈ l.set i a, x ∈ l ∨ x = a := by
  induction l generalizing i with
  | nil => simp
  | cons y ys ih =>
    cases i with
    | zero =>
      intro x hx
      rcases List.mem_cons.mp hx with rfl | hx
      · exact Or.inr rfl
      · exact Or.inl (List.mem_cons_of_mem y hx)
    | succ i =>
      intro x hx
      rcases List.mem_cons.mp hx with rfl | hx
      · exact Or.inl (List.mem_cons_self _ _)
      · rcases ih i x hx with hx | hx
        · exact Or.inl (List.mem_cons_of_mem y hx)
        · exact Or.inr hx

theorem getD_replicate' (n : ℕ) (x d : α) (i : ℕ) (h : i < n) :
    (List.replicate n x).getD i d = x := by
  induction n generalizing i with
  | zero => simp at h
  | succ n ih =>
    cases i with
    | zero => rfl
    | succ i => exact ih i (by omega)

theorem adjFold_spec (M : IntervalMatrix) (t : ℚ) (n : ℕ) :
    ∀ (L : List (ℕ × ℕ)) (g : List (List ℕ)),
      g.length = n → (∀ row ∈ g, row.length = n) →
      (∀ p ∈ L, p.1 < n ∧ p.2 < n) →
      ∃ g', (L.foldlM
          (fun g ij =>
            if memI (M.cell ij.1 ij.2) t = true then setNum? g ij.1 ij.2 1
            else some g) g) = some g' ∧
        g'.length = n ∧ (∀ row ∈ g', row.length = n) ∧
        ∀ i j, i < n → j < n →
          (g'.getD i []).getD j 0
            = if (i, j) ∈ L ∧ memI (M.cell i j) t = true then 1
              else (g.getD i []).getD j 0 := by
  intro L
  induction L with
  | nil =>
    intro g hg hrows _
    refine ⟨g, rfl, hg, hrows, ?_⟩
    intro i j _ _
    rw [if_neg (by simp)]
  | cons p L ih =>
    intro g hg hrows hL
    obtain ⟨a, b⟩ := p
    have hab := hL (a, b) (List.mem_cons_self _ _)
    have hrowlen : (g.getD a []).length = n := by
      have : g.getD a [] ∈ g := by
        rw [List.getD_eq_getElem _ _ (by rw [hg]; exact hab.1)]
        exact List.getElem_mem _
      exact hrows _ this
    by_cases hmem : memI (M.cell a b) t = true
    · -- the head writes a 1
      have hset : setNum? g a b 1
          = some (g.set a ((g.getD a []).set b 1)) := by
        unfold setNum?
        rw [if_pos ⟨by rw [hg]; exact hab.1, by rw [hrowlen]; exact hab.2⟩]
      have hg1len : (g.set a ((g.getD a []).set b 1)).length = n := by
        rw [List.length_set]; exact hg
      have hg1rows : ∀ row ∈ g.set a ((g.getD a []).set b 1), row.length = n := by
        intro row hrow
        rcases mem_set_cases _ _ _ row hrow with hrow | rfl
        · exact hrows row hrow
        · rw [List.length_set]; exact hrowlen
      obtain ⟨g', hfold, hlen', hrows', hcells⟩ :=
        ih (g.set a ((g.getD a []).set b 1)) hg1len hg1rows
          fun q hq => hL q (List.mem_cons_of_mem _ hq)
      refine ⟨g', ?_, hlen', hrows', ?_⟩
      · rw [List.foldlM_cons, if_pos hmem, hset]
        exact hfold
      · intro i j hi hj
        rw [hcells i j hi hj]
        by_cases hrest : (i, j) ∈ L ∧ memI (M.cell i j) t = true
        · rw [if_pos hrest, if_pos ⟨List.mem_cons_of_mem _ hrest.1, hrest.2⟩]
        · rw [if_neg hrest]
          by_cases heq : (i, j) = (a, b)
          · injection heq with h1 h2
            subst h1
            subst h2
            rw [if_pos ⟨List.mem_cons_self _ _, hmem⟩]
            rw [getD_set_self _ _ _ _ (by rw [hg]; exact hab.1),
              getD_set_self _ _ _ _ (by rw [hrowlen]; exact hab.2)]
          · have hne : ¬((i, j) ∈ (a, b) :: L ∧ memI (M.cell i j) t = true) := by
              rintro ⟨hin, hm⟩
              rcases List.mem_cons.mp hin with h' | h'
              · exact heq h'
              · exact hrest ⟨h', hm⟩
            rw [if_neg hne]
            by_cases hia : i = a
            · subst hia
              have hjb : j ≠ b := fun hh => heq (by rw [hh])
              rw [getD_set_self _ _ _ _ (by rw [hg]; exact hab.1),
                getD_set_ne _ _ _ _ _ (fun hh => hjb hh.symm)]
            · rw [getD_set_ne _ _ _ _ _ (fun hh => hia hh.symm)]
    · -- the head makes no write
      obtain ⟨g', hfold, hlen', hrows', hcells⟩ :=
        ih g hg hrows fun q hq => hL q (List.mem_cons_of_mem _ hq)
      refine ⟨g', ?_, hlen', hrows', ?_⟩
      · rw [List.foldlM_cons, if_neg hmem]
        exact hfold
      · intro i j hi hj
        rw [hcells i j hi hj]
        by_cases hrest : (i, j) ∈ L ∧ memI (M.cell i j) t = true
        · rw [if_pos hrest, if_pos ⟨List.mem_cons_of_mem _ hrest.1, hrest.2⟩]
        · rw [if_neg hrest]
          have hne : ¬((i, j) ∈ (a, b) :: L ∧ memI (M.cell i j) t = true) := by
            rintro ⟨hin, hm⟩
            rcases List.mem_cons.mp hin with h' | h'
            · have : i = a ∧ j = b := by injection h' with h1 h2; exact ⟨h1, h2⟩
              rw [this.1, this.2] at hm
              exact hmem hm
            · exact hrest ⟨h', hm⟩
          rw [if_neg hne]

theorem mat22_WF : mat22.WF :=
  ⟨rfl, by decide, fun ls h => by cases h⟩

/-! ## Claims C3, C7, C8, C9 -/

/-- C3: on a square matrix, `get_k_cumulant(k)` succeeds and equals (as a
portion matrix) the entrywise union of `power(0)` through `power(k)`
(`mpow?`/`mpowT` is the code's `__pow__`); `get_k_cumulant(0)` equals the
identity matrix; every cell of `get_k_cumulant(k)` is a subset of the
matching cell of `get_k_cumulant(k+1)`; and on a non-square matrix
`get_k_cumulant` raises (returns `none`). -/
theorem claim_C3_cumulant (M : IntervalMatrix) (k : ℕ) :
    (M.dim_row = M.dim_col →
      get_k_cumulant? M k = some (cumT M k) ∧
      matrixEq (cumT M k) (sumPowers M k) = true ∧
      (∀ m, mpow? M m = some (mpowT M m)) ∧
      matrixEq (cumT M 0) (identity_matrix M.dim_row) = true ∧
      ∀ i j, i < M.dim_row → j < M.dim_row →
        isSubset ((cumT M k).cell i j) ((cumT M (k + 1)).cell i j) = true) ∧
    (M.dim_row ≠ M.dim_col → get_k_cumulant? M k = none) := by
  constructor
  · intro h
    refine ⟨get_k_cumulant_some M h k, ?_, ?_, ?_, ?_⟩
    · rw [matrixEq_iff]
      refine ⟨(cumT_dims M k).2.trans (sumPowers_dims M k).2.symm,
        (cumT_dims M k).1.trans (sumPowers_dims M k).1.symm, ?_⟩
      intro i j hi hj t
      rw [(cumT_dims M k).1] at hi
      rw [(cumT_dims M k).2] at hj
      rw [mem_cell_cumT M h k hi hj t, mem_cell_sumPowers M h k hi hj t]
    · intro m
      unfold mpow?
      rw [if_neg (fun hc => hc h)]
    · exact matrixEq_refl (identity_matrix M.dim_row)
    · intro i j hi hj
      rw [isSubset_iff]
      intro t hmem
      have hsucc : cumT M (k + 1) = maddT (cumT M k) (mpowL M (k + 1)) := by
        unfold cumT
        rw [List.range_succ, List.map_append, List.foldl_append]
        rfl
      rw [hsucc, cell_maddT _ _ (by rw [(cumT_dims M k).1]; exact hi)
        (by rw [(cumT_dims M k).2]; exact hj), memI_unionI, hmem, Bool.true_or]
  · intro h
    unfold get_k_cumulant?
    rw [if_pos h]

/-- C3 witness: the theorem applied to a concrete square matrix. -/
theorem claim_C3_witness :
    mat22.dim_row = mat22.dim_col ∧
    matrixEq (cumT mat22 1) (sumPowers mat22 1) = true :=
  ⟨rfl, ((claim_C3_cumulant mat22 1).1 rfl).2.1⟩

/-- C7 (amended to square matrices): on a square well-formed matrix,
`get_transpose` succeeds, swaps the cells, is an involution up to `==`,
and fixes symmetric matrices up to `==`. -/
theorem claim_C7_transpose (M : IntervalMatrix) (hWF : M.WF)
    (hsq : M.dim_row = M.dim_col) :
    get_transpose? M = some (transposeVal M) ∧
    (∀ i j, i < M.dim_row → j < M.dim_col →
      (transposeVal M).cell j i = M.cell i j) ∧
    get_transpose? (transposeVal M) = some (transposeVal (transposeVal M)) ∧
    matrixEq (transposeVal (transposeVal M)) M = true ∧
    (is_symmetric M = true → matrixEq (transposeVal M) M = true) := by
  have hTWF := transposeVal_WF M hWF hsq
  have hTsq : (transposeVal M).dim_row = (transposeVal M).dim_col := hsq
  refine ⟨get_transpose_some M hWF hsq,
    fun i j hi hj => cell_transposeVal M hWF hsq hi hj,
    get_transpose_some _ hTWF hTsq, ?_, ?_⟩
  · rw [matrixEq_iff]
    refine ⟨rfl, rfl, ?_⟩
    intro i j hi hj t
    have h1 : (transposeVal (transposeVal M)).cell i j
        = (transposeVal M).cell j i :=
      cell_transposeVal (transposeVal M) hTWF hTsq
        (show j < (transposeVal M).dim_row by rw [show (transposeVal M).dim_row = M.dim_row from rfl, hsq]; exact hj)
        (show i < (transposeVal M).dim_col by rw [show (transposeVal M).dim_col = M.dim_col from rfl, ← hsq]; exact hi)
    have h2 : (transposeVal M).cell j i = M.cell i j :=
      cell_transposeVal M hWF hsq hi hj
    rw [h1, h2]
  · intro hsymm
    rw [matrixEq_iff]
    refine ⟨rfl, rfl, ?_⟩
    intro i j hi hj t
    have h1 : (transposeVal M).cell i j = M.cell j i :=
      cell_transposeVal M hWF hsq
        (show j < M.dim_row by rw [hsq]; exact hj)
        (show i < M.dim_col by rw [← hsq]; exact hi)
    rw [h1]
    obtain ⟨-, hsym⟩ := (is_symmetric_iff M).mp hsymm
    rcases lt_trichotomy i j with hlt | rfl | hlt
    · exact hsym j i (by rw [hsq]; exact hj) (by rw [← hsq]; exact hi) hlt t
    · rfl
    · exact (hsym i j hi hj hlt t).symm

/-- C7 counterexample: on the non-square 1×2 matrix, `get_transpose`
raises ValueError instead of "always succeeding". -/
theorem claim_C7_counterexample : get_transpose? mat12 = none := rfl

/-- C7 witness: the amended theorem applied to a concrete square
matrix. -/
theorem claim_C7_witness :
    get_transpose? mat22 = some (transposeVal mat22) ∧
    matrixEq (transposeVal (transposeVal mat22)) mat22 = true :=
  have h := claim_C7_transpose mat22 mat22_WF rfl
  ⟨h.1, h.2.2.2.1⟩

/-- C8 (amended): `~(~A) == A` holds for every matrix; the equation
`A + ~A == constant_matrix(rows, cols, unbounded)` holds for square
matrices (for non-square ones `constant_matrix` itself raises). -/
theorem claim_C8_complement (A : IntervalMatrix) :
    matrixEq (minvert (minvert A)) A = true ∧
    (A.dim_row = A.dim_col →
      madd? A (minvert A) = some (maddT A (minvert A)) ∧
      constant_matrix? A.dim_row A.dim_col unboundedI
        = some ⟨A.dim_row, A.dim_row,
            List.replicate A.dim_row (List.replicate A.dim_col unboundedI), none⟩ ∧
      matrixEq (maddT A (minvert A))
        ⟨A.dim_row, A.dim_row,
          List.replicate A.dim_row (List.replicate A.dim_col unboundedI), none⟩
        = true) := by
  constructor
  · rw [matrixEq_iff]
    refine ⟨rfl, rfl, ?_⟩
    intro i j hi hj t
    rw [show (minvert (minvert A)).cell i j = complI ((minvert A).cell i j) from
      cell_minvert (minvert A) hi hj]
    rw [memI_complI, cell_minvert A hi hj, memI_complI, Bool.not_not]
  · intro h
    refine ⟨by unfold madd?; rw [if_pos ⟨rfl, rfl⟩], ?_, ?_⟩
    · unfold constant_matrix? mkIntervalMatrix
      rw [if_pos]
      · simp only [Bool.and_eq_true, beq_iff_eq, List.all_eq_true]
        refine ⟨⟨trivial, by rw [List.length_replicate]⟩, ?_⟩
        intro row hrow
        rw [List.eq_of_mem_replicate hrow, List.length_replicate]
        exact h.symm
    · rw [matrixEq_iff]
      refine ⟨h.symm, rfl, ?_⟩
      intro i j hi hj t
      rw [cell_maddT A (minvert A) hi hj, memI_unionI,
        cell_minvert A hi hj, memI_complI, Bool.or_not_self]
      show true = memI ((List.replicate A.dim_row
        (List.replicate A.dim_col unboundedI)).getD i [] |>.getD j emptyI) t
      rw [getD_replicate' A.dim_row _ _ i hi, getD_replicate' A.dim_col _ _ j hj]
      rfl

/-- C8 counterexample: on the non-square 1×2 matrix, `A + ~A` is a matrix
but `constant_matrix(1, 2, unbounded)` raises ValueError, so the claimed
equation fails. -/
theorem claim_C8_counterexample :
    madd? mat12 (minvert mat12) = some (maddT mat12 (minvert mat12)) ∧
    constant_matrix? mat12.dim_row mat12.dim_col unboundedI = none :=
  ⟨by unfold madd?; rw [if_pos ⟨rfl, rfl⟩], rfl⟩

/-- C8 witness: the amended theorem applied to a concrete square
matrix. -/
theorem claim_C8_witness :
    mat22.dim_row = mat22.dim_col ∧
    matrixEq (minvert (minvert mat22)) mat22 = true ∧
    madd? mat22 (minvert mat22) = some (maddT mat22 (minvert mat22)) :=
  ⟨rfl, (claim_C8_complement mat22).1, ((claim_C8_complement mat22).2 rfl).1⟩

/-- C9 (amended to square matrices): on a square matrix,
`get_adjacency_matrix_at(t)` returns an n×n 0/1 grid whose `(i, j)` entry
is 1 exactly when `t` is in cell `(i, j)`. -/
theorem claim_C9_adjacency (M : IntervalMatrix) (hsq : M.dim_row = M.dim_col)
    (t : ℚ) :
    ∃ g, get_adjacency_matrix_at? M t = some g ∧
      g.length = M.dim_row ∧ (∀ row ∈ g, row.length = M.dim_col) ∧
      ∀ i j, i < M.dim_row → j < M.dim_col →
        (g.getD i []).getD j 0 = if memI (M.cell i j) t = true then 1 else 0 := by
  obtain ⟨g, hfold, hlen, hrows, hcells⟩ :=
    adjFold_spec M t M.dim_row (get_indices M.dim_row M.dim_col)
      (List.replicate M.dim_col (List.replicate M.dim_row 0))
      (by rw [List.length_replicate, hsq])
      (by intro row hrow; rw [List.eq_of_mem_replicate hrow, List.length_replicate])
      (by
        intro p hp
        obtain ⟨h1, h2⟩ := (mem_get_indices _ _ _).mp hp
        exact ⟨h1, by rw [hsq]; exact h2⟩)
  refine ⟨g, hfold, hlen, ?_, ?_⟩
  · intro row hrow
    rw [hrows row hrow, hsq]
  · intro i j hi hj
    have hj' : j < M.dim_row := by rw [hsq]; exact hj
    rw [hcells i j hi hj']
    have hin : (i, j) ∈ get_indices M.dim_row M.dim_col :=
      (mem_get_indices _ _ _).mpr ⟨hi, hj⟩
    by_cases hmem : memI (M.cell i j) t = true
    · rw [if_pos ⟨hin, hmem⟩, if_pos hmem]
    · rw [if_neg (fun hc => hmem hc.2), if_neg hmem,
        getD_replicate' M.dim_col _ _ i (by rw [← hsq]; exact hi),
        getD_replicate' M.dim_row _ _ j hj']

/-- C9 counterexample: on the non-square 1×2 matrix the zero grid is built
with transposed dimensions, and writing the `(0, 1)` entry raises
IndexError. -/
theorem claim_C9_counterexample : get_adjacency_matrix_at? mat12 0 = none := rfl

/-- C9 witness: the amended theorem applied to a concrete square
matrix. -/
theorem claim_C9_witness :
    ∃ g, get_adjacency_matrix_at? mat22 3 = some g ∧
      g.length = mat22.dim_row ∧ (∀ row ∈ g, row.length = mat22.dim_col) ∧
      ∀ i j, i < mat22.dim_row → j < mat22.dim_col →
        (g.getD i []).getD j 0 = if memI (mat22.cell i j) 3 = true then 1 else 0 :=
  claim_C9_adjacency mat22 rfl 3

theorem atomNonempty_iff (a : Atomic) :
    atomNonempty a = true ↔ ∃ t : ℚ, memA a t = true := by
  obtain ⟨lo, hi⟩ := a
  match lo, hi with
  | none, none =>
    exact ⟨fun _ => ⟨0, rfl⟩, fun _ => rfl⟩
  | none, some (q, c) =>
    refine ⟨fun _ => ⟨q - 1, ?_⟩, fun _ => rfl⟩
    show (true && highOk (some (q, c)) (q - 1)) = true
    simp only [Bool.true_and, highOk, Bool.or_eq_true, Bool.and_eq_true,
      decide_eq_true_eq]
    exact Or.inl (by linarith)
  | some (q, c), none =>
    refine ⟨fun _ => ⟨q + 1, ?_⟩, fun _ => rfl⟩
    show (lowOk (some (q, c)) (q + 1) && true) = true
    simp only [Bool.and_true, lowOk, Bool.or_eq_true, Bool.and_eq_true,
      decide_eq_true_eq]
    exact Or.inl (by linarith)
  | some (q, c), some (q', c') =>
    constructor
    · intro h
      simp only [atomNonempty, Bool.or_eq_true, Bool.and_eq_true,
        decide_eq_true_eq] at h
      rcases h with h | ⟨⟨hc, hc'⟩, rfl⟩
      · refine ⟨(q + q') / 2, ?_⟩
        show (lowOk (some (q, c)) _ && highOk (some (q', c')) _) = true
        simp only [lowOk, highOk, Bool.and_eq_true, Bool.or_eq_true,
          decide_eq_true_eq]
        exact ⟨Or.inl (by linarith), Or.inl (by linarith)⟩
      · refine ⟨q, ?_⟩
        show (lowOk (some (q, c)) q && highOk (some (q, c')) q) = true
        simp [lowOk, highOk, hc, hc']
    · rintro ⟨t, ht⟩
      have ht' : (lowOk (some (q, c)) t && highOk (some (q', c')) t) = true := ht
      simp only [lowOk, highOk, Bool.and_eq_true, Bool.or_eq_true,
        decide_eq_true_eq] at ht'
      simp only [atomNonempty, Bool.or_eq_true, Bool.and_eq_true,
        decide_eq_true_eq]
      obtain ⟨h1, h2⟩ := ht'
      rcases h1 with h1 | ⟨hc, rfl⟩ <;> rcases h2 with h2 | ⟨hc', h2⟩
      · exact Or.inl (by linarith)
      · exact Or.inl (by rw [h2] at h1; exact h1)
      · exact Or.inl (by linarith)
      · exact Or.inr ⟨⟨hc, hc'⟩, h2⟩

theorem nonemptyI_iff (I : Interval) :
    nonemptyI I = true ↔ ∃ t : ℚ, memI I t = true := by
  unfold nonemptyI memI
  rw [List.any_eq_true]
  constructor
  · rintro ⟨a, ha, hna⟩
    obtain ⟨t, ht⟩ := (atomNonempty_iff a).mp hna
    exact ⟨t, List.any_eq_true.mpr ⟨a, ha, ht⟩⟩
  · rintro ⟨t, ht⟩
    obtain ⟨a, ha, hta⟩ := List.any_eq_true.mp ht
    exact ⟨a, ha, (atomNonempty_iff a).mpr ⟨t, hta⟩⟩

theorem nonemptyI_eq_false (I : Interval) :
    nonemptyI I = false ↔ ∀ t : ℚ, memI I t = false := by
  constructor
  · intro h t
    cases hm : memI I t
    · rfl
    · have := (nonemptyI_iff I).mpr ⟨t, hm⟩
      rw [h] at this
      cases this
  · intro h
    cases hn : nonemptyI I
    · rfl
    · obtain ⟨t, ht⟩ := (nonemptyI_iff I).mp hn
      rw [h t] at ht
      cases ht

/-- The structural emptiness test agrees with portion's `== P.empty()`. -/
theorem intervalEq_empty_eq_not_nonemptyI (I : Interval) :
    intervalEq I emptyI = !nonemptyI I := by
  cases hn : nonemptyI I
  · rw [(intervalEq_iff I emptyI).mpr fun t => (nonemptyI_eq_false I).mp hn t]
    rfl
  · show intervalEq I emptyI = false
    cases he : intervalEq I emptyI
    · rfl
    · obtain ⟨t, ht⟩ := (nonemptyI_iff I).mp hn
      have := (intervalEq_iff I emptyI).mp he t
      rw [ht] at this
      cases this

theorem mkTVG_n (M : IntervalMatrix) (hWF : M.WF) : (mkTVG M).n = M.dim_row := by
  unfold mkTVG
  match h : M.labels with
  | some ls => exact hWF.2.2 ls h
  | none => simp

theorem mem_mkTVG_edges (M : IntervalMatrix) (u v : ℕ) (c : Interval) :
    (u, v, c) ∈ (mkTVG M).edges ↔
      u < v ∧ u < M.dim_row ∧ v < M.dim_col ∧
        nonemptyI (M.cell u v) = true ∧ c = M.cell u v := by
  unfold mkTVG upper_matrix_enumerate
  simp only [List.mem_filterMap, List.mem_map, List.mem_filter]
  constructor
  · rintro ⟨p, ⟨ij, ⟨hijm, hle⟩, rfl⟩, hf⟩
    obtain ⟨hi, hj⟩ := (mem_get_indices _ _ _).mp hijm
    by_cases hc : nonemptyI (M.cell ij.1 ij.2) = true ∧ ij.1 ≠ ij.2
    · rw [if_pos hc] at hf
      injection hf with hf
      injection hf with h1 hf
      injection hf with h2 h3
      subst h1
      subst h2
      subst h3
      exact ⟨lt_of_le_of_ne (by simpa using hle) hc.2, hi, hj, hc.1, rfl⟩
    · rw [if_neg hc] at hf
      cases hf
  · rintro ⟨hlt, hi, hj, hne, rfl⟩
    refine ⟨⟨(u, v), M.cell u v⟩,
      ⟨(u, v), ⟨(mem_get_indices _ _ _).mpr ⟨hi, hj⟩,
        by simpa using le_of_lt hlt⟩, rfl⟩, ?_⟩
    rw [if_pos ⟨hne, Nat.ne_of_lt hlt⟩]

theorem foldl_write_acc (L : List (ℕ × ℕ × Interval)) (i j : ℕ)
    (acc : Option Interval) :
    L.foldl (fun acc e => if e.1 = i ∧ e.2.1 = j then some e.2.2 else acc) acc
      = match lastWrite L i j with
        | some v => some v
        | none => acc := by
  induction L generalizing acc with
  | nil => rfl
  | cons e L ih =>
    rw [List.foldl_cons]
    show _ = match lastWrite (e :: L) i j with | some v => some v | none => acc
    have : lastWrite (e :: L) i j
        = L.foldl (fun acc e => if e.1 = i ∧ e.2.1 = j then some e.2.2 else acc)
            (if e.1 = i ∧ e.2.1 = j then some e.2.2 else none) := rfl
    rw [this, ih, ih]
    by_cases h : e.1 = i ∧ e.2.1 = j
    · rw [if_pos h, if_pos h]
      cases lastWrite L i j <;> rfl
    · rw [if_neg h, if_neg h]
      cases lastWrite L i j <;> rfl

theorem lastWrite_cons (e : ℕ × ℕ × Interval) (L : List (ℕ × ℕ × Interval))
    (i j : ℕ) :
    lastWrite (e :: L) i j
      = match lastWrite L i j with
        | some v => some v
        | none => if e.1 = i ∧ e.2.1 = j then some e.2.2 else none := by
  show L.foldl _ (if e.1 = i ∧ e.2.1 = j then some e.2.2 else none) = _
  rw [foldl_write_acc]

theorem setCellFold_spec (L : List (ℕ × ℕ × Interval)) :
    ∀ (M0 : IntervalMatrix),
      M0.array.length = M0.dim_row →
      (∀ row ∈ M0.array, row.length = M0.dim_col) →
      (∀ e ∈ L, e.1 < M0.dim_row ∧ e.2.1 < M0.dim_col) →
      ∃ M1, (L.foldlM (fun m e => IntervalMatrix.setCell? m e.1 e.2.1 e.2.2) M0) = some M1 ∧
        M1.dim_row = M0.dim_row ∧ M1.dim_col = M0.dim_col ∧
        M1.labels = M0.labels ∧
        ∀ i j, i < M0.dim_row → j < M0.dim_col →
          M1.cell i j = (lastWrite L i j).getD (M0.cell i j) := by
  induction L with
  | nil =>
    intro M0 _ _ _
    exact ⟨M0, rfl, rfl, rfl, rfl, fun i j _ _ => rfl⟩
  | cons e L ih =>
    intro M0 hlen hrows hL
    obtain ⟨ha, hb⟩ := hL e (List.mem_cons_self _ _)
    have hrowlen : (M0.array.getD e.1 []).length = M0.dim_col := by
      have : M0.array.getD e.1 [] ∈ M0.array := by
        rw [List.getD_eq_getElem _ _ (by rw [hlen]; exact ha)]
        exact List.getElem_mem _
      exact hrows _ this
    have hset : M0.setCell? e.1 e.2.1 e.2.2
        = some { M0 with
            array := M0.array.set e.1 ((M0.array.getD e.1 []).set e.2.1 e.2.2) } := by
      unfold IntervalMatrix.setCell?
      rw [if_pos ⟨by rw [hlen]; exact ha, by rw [hrowlen]; exact hb⟩]
    set M0' : IntervalMatrix :=
      { M0 with
        array := M0.array.set e.1 ((M0.array.getD e.1 []).set e.2.1 e.2.2) } with hM0'
    have hlen' : M0'.array.length = M0'.dim_row := by
      show (M0.array.set _ _).length = M0.dim_row
      rw [List.length_set]; exact hlen
    have hrows' : ∀ row ∈ M0'.array, row.length = M0'.dim_col := by
      intro row hrow
      rcases mem_set_cases _ _ _ row hrow with hrow | rfl
      · exact hrows row hrow
      · show ((M0.array.getD e.1 []).set e.2.1 e.2.2).length = M0.dim_col
        rw [List.length_set]; exact hrowlen
    obtain ⟨M1, hfold, hdr, hdc, hlab, hcells⟩ :=
      ih M0' hlen' hrows' fun q hq => hL q (List.mem_cons_of_mem _ hq)
    refine ⟨M1, ?_, hdr, hdc, hlab, ?_⟩
    · rw [List.foldlM_cons, hset]
      exact hfold
    · intro i j hi hj
      rw [hcells i j hi hj, lastWrite_cons]
      have hM0'cell : M0'.cell i j
          = if e.1 = i ∧ e.2.1 = j then e.2.2 else M0.cell i j := by
        show ((M0.array.set e.1 _).getD i []).getD j emptyI = _
        by_cases hie : e.1 = i
        · subst hie
          rw [getD_set_self _ _ _ _ (by rw [hlen]; exact hi)]
          by_cases hje : e.2.1 = j
          · subst hje
            rw [getD_set_self _ _ _ _ (by rw [hrowlen]; exact hj),
              if_pos ⟨rfl, rfl⟩]
          · rw [getD_set_ne _ _ _ _ _ hje, if_neg (fun hc => hje hc.2)]
            rfl
        · rw [getD_set_ne _ _ _ _ _ hie, if_neg (fun hc => hie hc.1)]
          rfl
      cases hlw : lastWrite L i j with
      | some v => rfl
      | none =>
        rw [Option.getD_none, hM0'cell]
        by_cases h : e.1 = i ∧ e.2.1 = j
        · rw [if_pos h, if_pos h, Option.getD_some]
        · rw [if_neg h, if_neg h, Option.getD_none]

theorem lastWrite_eq_none (L : List (ℕ × ℕ × Interval)) (i j : ℕ)
    (h : ∀ e ∈ L, ¬(e.1 = i ∧ e.2.1 = j)) : lastWrite L i j = none := by
  induction L with
  | nil => rfl
  | cons e L ih =>
    rw [lastWrite_cons, ih fun q hq => h q (List.mem_cons_of_mem _ hq),
      if_neg (h e (List.mem_cons_self _ _))]

theorem lastWrite_eq_some (L : List (ℕ × ℕ × Interval)) (i j : ℕ) (w : Interval)
    (hall : ∀ e ∈ L, e.1 = i → e.2.1 = j → e.2.2 = w)
    (hex : ∃ e ∈ L, e.1 = i ∧ e.2.1 = j) :
    lastWrite L i j = some w := by
  induction L with
  | nil =>
    obtain ⟨e, he, _⟩ := hex
    cases he
  | cons e L ih =>
    rw [lastWrite_cons]
    by_cases hLex : ∃ q ∈ L, q.1 = i ∧ q.2.1 = j
    · rw [ih (fun q hq hq1 hq2 => hall q (List.mem_cons_of_mem _ hq) hq1 hq2) hLex]
    · rw [lastWrite_eq_none L i j fun q hq hc => hLex ⟨q, hq, hc⟩]
      obtain ⟨q, hq, hc⟩ := hex
      rcases List.mem_cons.mp hq with rfl | hq
      · rw [if_pos hc, hall q (List.mem_cons_self _ _) hc.1 hc.2]
      · exact absurd ⟨q, hq, hc⟩ hLex

theorem identity_array_shape (k : ℕ) :
    (identity_matrix k).array.length = k ∧
      ∀ row ∈ (identity_matrix k).array, row.length = k := by
  constructor
  · simp [identity_matrix, gridOf]
  · intro row hrow
    simp only [identity_matrix, gridOf, List.mem_map] at hrow
    obtain ⟨i, _, rfl⟩ := hrow
    simp

/-- C1 (amended to upper-triangular sources): for a square well-formed
matrix with (semantically) unbounded diagonal and empty lower triangle,
`TVG(M).get_interval_matrix()` succeeds and `== M`; the reconstruction
has unbounded diagonal, carries each edge's `contacts` in the
upper-triangular cell `(i, j)`, `i < j`, and every other cell is empty
(the lower mirror cell is NOT written). -/
theorem claim_C1_roundtrip (M : IntervalMatrix) (hWF : M.WF)
    (hsq : M.dim_row = M.dim_col)
    (hdiag : ∀ i, i < M.dim_row → ∀ t : ℚ, memI (M.cell i i) t = true)
    (hlower : ∀ i j, j < i → i < M.dim_row → ∀ t : ℚ, memI (M.cell i j) t = false) :
    ∃ R, get_interval_matrix (mkTVG M) = some R ∧ matrixEq R M = true ∧
      R.dim_row = M.dim_row ∧ R.dim_col = M.dim_row ∧
      (∀ i, i < M.dim_row → R.cell i i = unboundedI) ∧
      (∀ i j, i < j → j < M.dim_row →
        R.cell i j = if nonemptyI (M.cell i j) = false then emptyI
          else M.cell i j) ∧
      ∀ i j, j < i → i < M.dim_row → R.cell i j = emptyI := by
  have hn : (mkTVG M).n = M.dim_row := mkTVG_n M hWF
  obtain ⟨hlen0, hrows0⟩ := identity_array_shape (mkTVG M).n
  have hid_dims : (identity_matrix (mkTVG M).n).dim_row = M.dim_row ∧
      (identity_matrix (mkTVG M).n).dim_col = M.dim_row := by
    constructor <;> · show (mkTVG M).n = M.dim_row; exact hn
  obtain ⟨M1, hfold, hdr, hdc, _, hcells⟩ :=
    setCellFold_spec (mkTVG M).edges (identity_matrix (mkTVG M).n)
      (by rw [hlen0]; rfl)
      (by intro row hrow; rw [hrows0 row hrow]; rfl)
      (by
        rintro ⟨u, v, c⟩ he
        obtain ⟨huv, hu, hv, _, _⟩ := (mem_mkTVG_edges M u v c).mp he
        constructor
        · show u < (mkTVG M).n; rw [hn]; exact hu
        · show v < (mkTVG M).n; rw [hn, hsq]; exact hv)
  have hid_cell : ∀ i j, i < M.dim_row → j < M.dim_row →
      (identity_matrix (mkTVG M).n).cell i j
        = if i = j then unboundedI else emptyI := by
    intro i j hi hj
    unfold identity_matrix
    rw [cell_gridOf, if_pos ⟨by rw [hn]; exact hi, by rw [hn]; exact hj⟩]
  set R : IntervalMatrix := { M1 with labels := some (mkTVG M).labels } with hR
  have hRcell : ∀ i j, R.cell i j = M1.cell i j := fun i j => rfl
  have hRdr : R.dim_row = M.dim_row := by
    show M1.dim_row = M.dim_row
    rw [hdr, hid_dims.1]
  have hRdc : R.dim_col = M.dim_row := by
    show M1.dim_col = M.dim_row
    rw [hdc, hid_dims.2]
  have hcell' : ∀ i j, i < M.dim_row → j < M.dim_row →
      R.cell i j = (lastWrite (mkTVG M).edges i j).getD
        (if i = j then unboundedI else emptyI) := by
    intro i j hi hj
    rw [hRcell, hcells i j (by rw [hid_dims.1]; exact hi) (by rw [hid_dims.2]; exact hj),
      hid_cell i j hi hj]
  have hupper : ∀ i j, i < j → j < M.dim_row →
      R.cell i j = if nonemptyI (M.cell i j) = false then emptyI
        else M.cell i j := by
    intro i j hij hj
    have hi : i < M.dim_row := lt_trans hij hj
    rw [hcell' i j hi hj]
    by_cases hne : nonemptyI (M.cell i j) = true
    · rw [lastWrite_eq_some (mkTVG M).edges i j (M.cell i j)
        (by
          rintro ⟨u, v, c⟩ he h1 h2
          obtain ⟨-, -, -, -, hc⟩ := (mem_mkTVG_edges M u v c).mp he
          show c = M.cell i j
          rw [hc]
          show M.cell u v = M.cell i j
          rw [show u = i from h1, show v = j from h2])
        ⟨(i, j, M.cell i j), (mem_mkTVG_edges M i j (M.cell i j)).mpr
          ⟨hij, hi, by rw [← hsq]; exact hj, hne, rfl⟩, rfl, rfl⟩]
      rw [Option.getD_some, hne, if_neg (fun hbf => Bool.noConfusion hbf)]
    · have heq : nonemptyI (M.cell i j) = false := by
        cases h : nonemptyI (M.cell i j)
        · rfl
        · exact absurd h hne
      rw [lastWrite_eq_none (mkTVG M).edges i j
        (by
          rintro ⟨u, v, c⟩ he ⟨h1, h2⟩
          obtain ⟨-, -, -, hc, -⟩ := (mem_mkTVG_edges M u v c).mp he
          rw [show u = i from h1, show v = j from h2] at hc
          rw [heq] at hc
          cases hc)]
      rw [if_pos heq, Option.getD_none, if_neg (Nat.ne_of_lt hij)]
  have hdiagR : ∀ i, i < M.dim_row → R.cell i i = unboundedI := by
    intro i hi
    rw [hcell' i i hi hi, lastWrite_eq_none (mkTVG M).edges i i
      (by
        rintro ⟨u, v, c⟩ he ⟨h1, h2⟩
        obtain ⟨huv, -, -, -, -⟩ := (mem_mkTVG_edges M u v c).mp he
        rw [show u = i from h1, show v = i from h2] at huv
        exact lt_irrefl i huv),
      Option.getD_none, if_pos rfl]
  have hlowR : ∀ i j, j < i → i < M.dim_row → R.cell i j = emptyI := by
    intro i j hji hi
    have hj : j < M.dim_row := lt_trans hji hi
    rw [hcell' i j hi hj, lastWrite_eq_none (mkTVG M).edges i j
      (by
        rintro ⟨u, v, c⟩ he ⟨h1, h2⟩
        obtain ⟨huv, -, -, -, -⟩ := (mem_mkTVG_edges M u v c).mp he
        rw [show u = i from h1, show v = j from h2] at huv
        exact lt_asymm hji huv),
      Option.getD_none, if_neg (Nat.ne_of_gt hji)]
  refine ⟨R, ?_, ?_, hRdr, hRdc, hdiagR, hupper, hlowR⟩
  · unfold get_interval_matrix
    rw [hfold]
    rfl
  · rw [matrixEq_iff]
    refine ⟨by rw [hRdc, hsq], by rw [hRdr], ?_⟩
    intro i j hi hj t
    rw [hRdr] at hi
    rw [hRdc] at hj
    rcases lt_trichotomy i j with hij | rfl | hij
    · rw [hupper i j hij hj]
      by_cases he : nonemptyI (M.cell i j) = false
      · rw [if_pos he, (nonemptyI_eq_false (M.cell i j)).mp he t]
        rfl
      · rw [if_neg he]
    · rw [hdiagR i hi, hdiag i hi t]
      rfl
    · rw [hlowR i j hij hi, hlower i j hij hi t]
      rfl

/-- C1 counterexample: the symmetric matrix `mat22` (unbounded diagonal,
`[0,6]` in both mirror cells) does NOT round-trip: `get_interval_matrix`
writes only the upper cell, leaving `(1, 0)` empty. -/
theorem claim_C1_counterexample :
    ∃ R, get_interval_matrix (mkTVG mat22) = some R ∧ matrixEq R mat22 = false := by
  refine ⟨⟨2, 2, [[unboundedI, closedI 0 6], [emptyI, unboundedI]],
    some ["0", "1"]⟩, by rfl, ?_⟩
  cases h : matrixEq (⟨2, 2, [[unboundedI, closedI 0 6], [emptyI, unboundedI]],
      some ["0", "1"]⟩ : IntervalMatrix) mat22 with
  | false => rfl
  | true =>
    exfalso
    have h2 := ((matrixEq_iff _ mat22).mp h).2.2 1 0 (by decide) (by decide) 3
    rw [show (IntervalMatrix.mk 2 2 [[unboundedI, closedI 0 6],
        [emptyI, unboundedI]] (some ["0", "1"])).cell 1 0 = emptyI from rfl,
      show mat22.cell 1 0 = closedI 0 6 from rfl] at h2
    rw [show memI emptyI 3 = false from rfl,
      show memI (closedI 0 6) 3 = true from rfl] at h2
    cases h2

theorem matUT_WF : matUT.WF := ⟨rfl, by decide, fun ls h => by cases h⟩

/-- C1 witness: the amended round-trip applied to a concrete
upper-triangular matrix. -/
theorem claim_C1_witness :
    ∃ R, get_interval_matrix (mkTVG matUT) = some R ∧ matrixEq R matUT = true := by
  obtain ⟨R, h1, h2, -⟩ := claim_C1_roundtrip matUT matUT_WF rfl
    (by
      intro i hi t
      have hi2 : i < 2 := hi
      interval_cases i <;> rfl)
    (by
      intro i j hji hi t
      have hi2 : i < 2 := hi
      interval_cases i
      · omega
      · have hj2 : j < 1 := hji
        interval_cases j
        rfl)
  exact ⟨R, h1, h2⟩

theorem ratXQ_lt_ratXQ (a b : ℚ) : ratXQ a < ratXQ b ↔ a < b := by
  unfold ratXQ
  rw [WithBot.coe_lt_coe, WithTop.coe_lt_coe]

/-- In a strictly sorted list no member lies strictly between two
consecutive entries. -/
theorem sorted_no_middle {α : Type} [LinearOrder α] (l : List α)
    (hs : l.Sorted (· < ·)) (idx : ℕ) (h1 : idx < l.length)
    (h2 : idx + 1 < l.length) (x : α) (hx : x ∈ l) :
    ¬(l.get ⟨idx, h1⟩ < x ∧ x < l.get ⟨idx + 1, h2⟩) := by
  rintro ⟨hlt1, hlt2⟩
  obtain ⟨⟨k, hk⟩, rfl⟩ := List.mem_iff_get.mp hx
  have hpw := List.pairwise_iff_get.mp hs
  rcases le_or_lt k idx with hkle | hkgt
  · rcases eq_or_lt_of_le hkle with rfl | hklt
    · exact lt_irrefl _ hlt1
    · exact lt_irrefl _ (lt_trans hlt1 (hpw ⟨k, hk⟩ ⟨idx, h1⟩ hklt))
  · have : idx + 1 ≤ k := hkgt
    rcases eq_or_lt_of_le this with heq | hklt
    · subst heq
      exact lt_irrefl _ hlt2
    · exact lt_irrefl _ (lt_trans hlt2 (hpw ⟨idx + 1, h2⟩ ⟨k, hk⟩ hklt))

theorem lowOk_of_far (q : ℚ) (c : Bool) (t t2 : ℚ)
    (h : (q < t ∧ q < t2) ∨ (t < q ∧ t2 < q)) :
    lowOk (some (q, c)) t = lowOk (some (q, c)) t2 := by
  rcases h with ⟨h1, h2⟩ | ⟨h1, h2⟩
  · have e1 : lowOk (some (q, c)) t = true := by simp [lowOk, h1]
    have e2 : lowOk (some (q, c)) t2 = true := by simp [lowOk, h2]
    rw [e1, e2]
  · have e1 : lowOk (some (q, c)) t = false := by
      simp [lowOk, lt_asymm h1, ne_of_gt h1]
    have e2 : lowOk (some (q, c)) t2 = false := by
      simp [lowOk, lt_asymm h2, ne_of_gt h2]
    rw [e1, e2]

theorem highOk_of_far (q : ℚ) (c : Bool) (t t2 : ℚ)
    (h : (q < t ∧ q < t2) ∨ (t < q ∧ t2 < q)) :
    highOk (some (q, c)) t = highOk (some (q, c)) t2 := by
  rcases h with ⟨h1, h2⟩ | ⟨h1, h2⟩
  · have e1 : highOk (some (q, c)) t = false := by
      simp [highOk, lt_asymm h1, ne_of_gt h1, ne_of_lt h1]
    have e2 : highOk (some (q, c)) t2 = false := by
      simp [highOk, lt_asymm h2, ne_of_gt h2, ne_of_lt h2]
    rw [e1, e2]
  · have e1 : highOk (some (q, c)) t = true := by simp [highOk, h1]
    have e2 : highOk (some (q, c)) t2 = true := by simp [highOk, h2]
    rw [e1, e2]

theorem memA_far (a : Atomic) (t t2 : ℚ)
    (hlo : ∀ q c, a.lo = some (q, c) → (q < t ∧ q < t2) ∨ (t < q ∧ t2 < q))
    (hhi : ∀ q c, a.hi = some (q, c) → (q < t ∧ q < t2) ∨ (t < q ∧ t2 < q)) :
    memA a t = memA a t2 := by
  obtain ⟨lo, hi⟩ := a
  unfold memA
  have hl : lowOk lo t = lowOk lo t2 := by
    match lo with
    | none => rfl
    | some (q, c) => exact lowOk_of_far q c t t2 (hlo q c rfl)
  have hh : highOk hi t = highOk hi t2 := by
    match hi with
    | none => rfl
    | some (q, c) => exact highOk_of_far q c t t2 (hhi q c rfl)
  rw [hl, hh]

/-- C4: `get_critical_times` is the sorted deduplicated list of all
`lower`/`upper` endpoints of every sub-range of every edge's contacts,
and the snapshot edge set is constant strictly between two consecutive
critical times. -/
theorem claim_C4_critical_times (G : TVG) :
    (get_critical_times G).Sorted (· < ·) ∧
    (∀ x : XQ, x ∈ get_critical_times G ↔
      ∃ e ∈ G.edges, ∃ a ∈ e.2.2, x = atomicLower a ∨ x = atomicUpper a) ∧
    ∀ (idx : ℕ) (h1 : idx < (get_critical_times G).length)
      (h2 : idx + 1 < (get_critical_times G).length) (t t2 : ℚ),
      (get_critical_times G).get ⟨idx, h1⟩ < ratXQ t →
      ratXQ t < (get_critical_times G).get ⟨idx + 1, h2⟩ →
      (get_critical_times G).get ⟨idx, h1⟩ < ratXQ t2 →
      ratXQ t2 < (get_critical_times G).get ⟨idx + 1, h2⟩ →
      edgesAt G t = edgesAt G t2 := by
  have hmem : ∀ x : XQ, x ∈ get_critical_times G ↔
      ∃ e ∈ G.edges, ∃ a ∈ e.2.2, x = atomicLower a ∨ x = atomicUpper a := by
    intro x
    rw [get_critical_times, mem_sortedDedup]
    simp only [List.mem_flatMap, List.mem_cons, List.mem_singleton,
      List.not_mem_nil, or_false]
  refine ⟨sorted_sortedDedup _, hmem, ?_⟩
  intro idx h1 h2 t t2 ht1 ht2 ht21 ht22
  unfold edgesAt
  apply List.filter_congr
  intro e he
  show memI e.2.2 t = memI e.2.2 t2
  unfold memI
  apply any_congr'
  intro a ha
  have hfar : ∀ q : ℚ, ratXQ q ∈ get_critical_times G →
      (q < t ∧ q < t2) ∨ (t < q ∧ t2 < q) := by
    intro q hq
    have := sorted_no_middle _ (sorted_sortedDedup _) idx h1 h2 _ hq
    rw [not_and_or, not_lt, not_lt] at this
    rcases this with hle | hge
    · left
      have hqt : ratXQ q < ratXQ t := lt_of_le_of_lt hle ht1
      have hqt2 : ratXQ q < ratXQ t2 := lt_of_le_of_lt hle ht21
      exact ⟨(ratXQ_lt_ratXQ q t).mp hqt, (ratXQ_lt_ratXQ q t2).mp hqt2⟩
    · right
      have hqt : ratXQ t < ratXQ q := lt_of_lt_of_le ht2 hge
      have hqt2 : ratXQ t2 < ratXQ q := lt_of_lt_of_le ht22 hge
      exact ⟨(ratXQ_lt_ratXQ t q).mp hqt, (ratXQ_lt_ratXQ t2 q).mp hqt2⟩
  apply memA_far
  · intro q c hq
    have hlow : atomicLower a = ratXQ q := by
      unfold atomicLower
      rw [hq]
    refine hfar q ?_
    rw [← hlow]
    exact (hmem _).mpr ⟨e, he, a, ha, Or.inl rfl⟩
  · intro q c hq
    have hup : atomicUpper a = ratXQ q := by
      unfold atomicUpper
      rw [hq]
    refine hfar q ?_
    rw [← hup]
    exact (hmem _).mpr ⟨e, he, a, ha, Or.inr rfl⟩

/-- C4 witness: the theorem applied to a concrete network, with two
times strictly between the consecutive critical times 0 and 6. -/
theorem claim_C4_witness :
    edgesAt (mkTVG matUT) 1 = edgesAt (mkTVG matUT) 2 :=
  (claim_C4_critical_times (mkTVG matUT)).2.2 0 (by decide) (by decide) 1 2
    (by decide) (by decide) (by decide) (by decide)

/-- C10: on a network with no edges, `get_critical_times` is empty, and
`get_teg` / `get_reeb_graph` called without explicit `start`/`end` raise
IndexError (modelled as `none`) when they index the empty critical-times
list. -/
theorem claim_C10_no_edges (M : IntervalMatrix)
    (hempty : ∀ i j, i < M.dim_row → j < M.dim_col → i ≠ j →
      nonemptyI (M.cell i j) = false) :
    (mkTVG M).edges = [] ∧
    get_critical_times (mkTVG M) = [] ∧
    (∀ ts limit, get_teg (mkTVG M) ts limit none none = none) ∧
    (∀ ts cl, get_reeb_graph (mkTVG M) ts cl none none = none) := by
  have hedges : (mkTVG M).edges = [] := by
    rw [List.eq_nil_iff_forall_not_mem]
    rintro ⟨u, v, c⟩ he
    obtain ⟨huv, hu, hv, hne, -⟩ := (mem_mkTVG_edges M u v c).mp he
    rw [hempty u v hu hv (Nat.ne_of_lt huv)] at hne
    cases hne
  have hct : get_critical_times (mkTVG M) = [] := by
    rw [get_critical_times, hedges]
    rfl
  refine ⟨hedges, hct, ?_, ?_⟩
  · intro ts limit
    unfold get_teg
    rw [hct]
    rfl
  · intro ts cl
    unfold get_reeb_graph
    rw [hct]
    rfl

/-- C10 witness: the theorem applied to a concrete edgeless network. -/
theorem claim_C10_witness :
    get_critical_times (mkTVG matNE) = [] ∧
    get_teg (mkTVG matNE) none ⊤ none none = none ∧
    get_reeb_graph (mkTVG matNE) none none none none = none :=
  ⟨(claim_C10_no_edges matNE (fun i j hi hj hne => by
      have hi2 : i < 2 := hi
      have hj2 : j < 2 := hj
      interval_cases i <;> interval_cases j <;> first | rfl | exact absurd rfl hne)).2.1,
   (claim_C10_no_edges matNE (fun i j hi hj hne => by
      have hi2 : i < 2 := hi
      have hj2 : j < 2 := hj
      interval_cases i <;> interval_cases j <;> first | rfl | exact absurd rfl hne)).2.2.1 none ⊤,
   (claim_C10_no_edges matNE (fun i j hi hj hne => by
      have hi2 : i < 2 := hi
      have hj2 : j < 2 := hj
      interval_cases i <;> interval_cases j <;> first | rfl | exact absurd rfl hne)).2.2.2 none none⟩

theorem foldl_setCell_oob (n : ℕ) (hn : 0 < n) (m : IntervalMatrix)
    (hlen : m.array.length = n) :
    (List.range n).foldlM
      (fun m _ => IntervalMatrix.setCell? m n n unboundedI) m = none := by
  cases n with
  | zero => omega
  | succ k =>
    rw [List.range_succ_eq_map, List.foldlM_cons]
    have h0 : IntervalMatrix.setCell? m (k + 1) (k + 1) unboundedI = none := by
      unfold IntervalMatrix.setCell?
      rw [if_neg]
      rw [hlen]
      omega
    rw [h0]
    rfl

/-- C2: `contact_plan_to_matrix` never returns a matrix for a nonempty
node set: the initialisation loop writes `matrix[(n, n)]`, one past the
last row and column, which raises IndexError.  The claimed closed-union
cells are never produced. -/
theorem claim_C2_contact_plan (nodes : List (String × ℕ))
    (edges : List ((ℕ × ℕ) × List ℚ)) (h : nodes ≠ []) :
    contact_plan_to_matrix? nodes edges = none := by
  have hn : 0 < nodes.length := List.length_pos.mpr h
  unfold contact_plan_to_matrix?
  cases hm : mkIntervalMatrix nodes.length nodes.length none
      (some (sortNodesByValue nodes)) with
  | none => rfl
  | some m0 =>
    have harr : m0.array.length = nodes.length := by
      have hm2 : (if ((sortNodesByValue nodes).length == nodes.length
            && (empty_array nodes.length nodes.length).length == nodes.length
            && (empty_array nodes.length nodes.length).all
              fun row => row.length == nodes.length) = true then
          some (⟨nodes.length, nodes.length,
            empty_array nodes.length nodes.length,
            some (sortNodesByValue nodes)⟩ : IntervalMatrix)
        else none) = some m0 := hm
      split at hm2
      · injection hm2 with hm2
        rw [← hm2]
        simp [empty_array]
      · cases hm2
    show ((List.range nodes.length).foldlM
        (fun m _ => IntervalMatrix.setCell? m nodes.length nodes.length
          unboundedI) m0).bind _ = none
    rw [foldl_setCell_oob nodes.length hn m0 harr]
    rfl

/-- C2 witness: the theorem applied to a one-node contact plan. -/
theorem claim_C2_witness : contact_plan_to_matrix? [("A", 0)] [] = none :=
  claim_C2_contact_plan [("A", 0)] [] (by simp)

/-! ## C5: layering and acyclicity of the time-expanded graph -/

theorem mem_zip_tail {α : Type} (l : List α) (p : α × α) :
    p ∈ l.zip l.tail ↔ ∃ k, ∃ hk1 : k < l.length, ∃ hk2 : k + 1 < l.length,
      p.1 = l.get ⟨k, hk1⟩ ∧ p.2 = l.get ⟨k + 1, hk2⟩ := by
  induction l with
  | nil => simp
  | cons x xs ih =>
    cases xs with
    | nil =>
      simp only [List.tail_cons, List.zip_nil_right, List.not_mem_nil,
        false_iff]
      rintro ⟨k, hk1, hk2, -⟩
      simp only [List.length_cons, List.length_nil] at hk2
      omega
    | cons y ys =>
      rw [List.tail_cons, List.zip_cons_cons, List.mem_cons]
      rw [show (y :: ys).zip ys = (y :: ys).zip (y :: ys).tail from rfl, ih]
      constructor
      · rintro (h | ⟨k, hk1, hk2, h1, h2⟩)
        · subst h
          exact ⟨0, by simp, by simp, rfl, rfl⟩
        · refine ⟨k + 1, ?_, ?_, h1, h2⟩ <;>
            · simp only [List.length_cons] at hk1 hk2 ⊢
              omega
      · rintro ⟨k, hk1, hk2, h1, h2⟩
        cases k with
        | zero =>
          left
          obtain ⟨a, b⟩ := p
          simp only at h1 h2
          rw [Prod.mk.injEq]
          exact ⟨h1, h2⟩
        | succ k =>
          right
          refine ⟨k, by simpa using Nat.lt_of_succ_lt_succ hk1,
            by simpa using Nat.lt_of_succ_lt_succ hk2, h1, h2⟩

theorem mem_tegEdges (G : TVG) (limit : WithTop ℚ) (ts : List XQ)
    (a b : ℕ × XQ) :
    (a, b) ∈ tegEdges G limit ts ↔
      ∃ k, ∃ hk1 : k < ts.length, ∃ hk2 : k + 1 < ts.length,
        a.2 = ts.get ⟨k, hk1⟩ ∧ b.2 = ts.get ⟨k + 1, hk2⟩ ∧
        a.1 < G.n ∧ b.1 < G.n ∧
        distLe (floydDist G.n (adjAtX G a.2) a.1 b.1) limit = true := by
  simp only [tegEdges, List.mem_flatMap, List.mem_filterMap]
  constructor
  · rintro ⟨p, hp, ij, hij, hif⟩
    split at hif
    · rename_i hd
      injection hif with hif
      obtain ⟨k, hk1, hk2, h1, h2⟩ := (mem_zip_tail ts p).mp hp
      obtain ⟨hij1, hij2⟩ := (mem_get_indices G.n G.n ij).mp hij
      injection hif with hifa hifb
      subst hifa
      subst hifb
      exact ⟨k, hk1, hk2, h1, h2, hij1, hij2, hd⟩
    · cases hif
  · rintro ⟨k, hk1, hk2, h1, h2, ha, hb, hd⟩
    refine ⟨(ts.get ⟨k, hk1⟩, ts.get ⟨k + 1, hk2⟩),
      (mem_zip_tail ts _).mpr ⟨k, hk1, hk2, rfl, rfl⟩,
      (a.1, b.1), (mem_get_indices G.n G.n (a.1, b.1)).mpr ⟨ha, hb⟩, ?_⟩
    show (if distLe (floydDist G.n (adjAtX G (ts.get ⟨k, hk1⟩)) a.1 b.1)
          limit = true then
        some ((a.1, ts.get ⟨k, hk1⟩), (b.1, ts.get ⟨k + 1, hk2⟩))
      else none) = some (a, b)
    rw [← h1, ← h2]
    rw [if_pos hd]

theorem tegEdges_rank (G : TVG) (limit : WithTop ℚ) (ts : List XQ)
    (hnd : ts.Nodup) (x y : ℕ × XQ)
    (h : Relation.TransGen (fun u v => (u, v) ∈ tegEdges G limit ts) x y) :
    ∃ kx ky, ∃ hx : kx < ts.length, ∃ hy : ky < ts.length,
      x.2 = ts.get ⟨kx, hx⟩ ∧ y.2 = ts.get ⟨ky, hy⟩ ∧ kx < ky := by
  induction h with
  | single h1 =>
    obtain ⟨k, hk1, hk2, e1, e2, -⟩ := (mem_tegEdges G limit ts _ _).mp h1
    exact ⟨k, k + 1, hk1, hk2, e1, e2, Nat.lt_succ_self k⟩
  | tail hstep hedge ih =>
    obtain ⟨kx, kb, hx, hb, hx2, hb2, hlt⟩ := ih
    obtain ⟨k, hk1, hk2, e1, e2, -⟩ := (mem_tegEdges G limit ts _ _).mp hedge
    have hfin : (⟨kb, hb⟩ : Fin ts.length) = ⟨k, hk1⟩ :=
      hnd.get_inj_iff.mp (by rw [← hb2, ← e1])
    have hkbk : kb = k := congrArg Fin.val hfin
    exact ⟨kx, k + 1, hx, hk2, hx2, e2, by omega⟩

theorem get_teg_some_shape (G : TVG) (sample_times : Option (List XQ))
    (limit : WithTop ℚ) (start stop : Option XQ) (teg : TEG)
    (hres : get_teg G sample_times limit start stop = some teg) :
    ∃ s e, teg =
      { nodes := tegNodes G (tegSamples G sample_times s e)
        edges := tegEdges G limit (tegSamples G sample_times s e) } := by
  unfold get_teg at hres
  split at hres
  · rename_i s
    rw [Option.some_bind] at hres
    split at hres
    · rename_i e
      rw [Option.some_bind] at hres
      injection hres with h
      exact ⟨s, e, h.symm⟩
    · cases hg : (get_critical_times G).getLast? with
      | none => rw [hg] at hres; exact Option.noConfusion hres
      | some e =>
        rw [hg, Option.some_bind] at hres
        injection hres with h
        exact ⟨s, e, h.symm⟩
  · cases hg : (get_critical_times G)[0]? with
    | none => rw [hg] at hres; exact Option.noConfusion hres
    | some s =>
      rw [hg, Option.some_bind] at hres
      split at hres
      · rename_i e
        rw [Option.some_bind] at hres
        injection hres with h
        exact ⟨s, e, h.symm⟩
      · cases hg2 : (get_critical_times G).getLast? with
        | none => rw [hg2] at hres; exact Option.noConfusion hres
        | some e =>
          rw [hg2, Option.some_bind] at hres
          injection hres with h
          exact ⟨s, e, h.symm⟩

/-- C5, amended to pairwise-distinct sample times: every edge of the TEG
runs from a node of one sample layer to a node of the immediately
following layer and exists exactly when the snapshot distance at the
earlier time is within the limit, and the graph is acyclic. -/
theorem claim_C5_teg (G : TVG) (sample_times : Option (List XQ))
    (limit : WithTop ℚ) (start stop : Option XQ) (teg : TEG)
    (hres : get_teg G sample_times limit start stop = some teg)
    (hnd : (match sample_times with
      | some ts => ts
      | none => get_critical_times G).Nodup) :
    ∃ tsf : List XQ,
      teg.nodes = tegNodes G tsf ∧
      (∀ a b : ℕ × XQ, ((a, b) ∈ teg.edges ↔
        ∃ k, ∃ hk1 : k < tsf.length, ∃ hk2 : k + 1 < tsf.length,
          a.2 = tsf.get ⟨k, hk1⟩ ∧ b.2 = tsf.get ⟨k + 1, hk2⟩ ∧
          a.1 < G.n ∧ b.1 < G.n ∧
          distLe (floydDist G.n (adjAtX G a.2) a.1 b.1) limit = true)) ∧
      ∀ v : ℕ × XQ, ¬ Relation.TransGen (fun x y => (x, y) ∈ teg.edges) v v := by
  obtain ⟨s, e, hteg⟩ :=
    get_teg_some_shape G sample_times limit start stop teg hres
  subst hteg
  refine ⟨tegSamples G sample_times s e, rfl, fun a b =>
    mem_tegEdges G limit _ a b, fun v hcyc => ?_⟩
  have hndf : (tegSamples G sample_times s e).Nodup :=
    List.Nodup.filter _ hnd
  obtain ⟨kx, ky, hx, hy, e1, e2, hlt⟩ :=
    tegEdges_rank G limit _ hndf v v hcyc
  have hfin : (⟨kx, hx⟩ : Fin (tegSamples G sample_times s e).length) =
      ⟨ky, hy⟩ := hndf.get_inj_iff.mp (by rw [← e1, ← e2])
  have : kx = ky := congrArg Fin.val hfin
  omega

/-- C5 counterexample: with the repeated (weakly ordered) sample times
`[1, 1]` the TEG contains the self-loop `((0, 1), (0, 1))`, a cycle, so
the original claim fails without a distinctness requirement. -/
theorem claim_C5_counterexample :
    ∃ teg, get_teg (mkTVG matUT) (some [ratXQ 1, ratXQ 1]) ⊤
        (some (ratXQ 0)) (some (ratXQ 6)) = some teg ∧
      Relation.TransGen (fun x y => (x, y) ∈ teg.edges) (0, ratXQ 1)
        (0, ratXQ 1) :=
  ⟨_, rfl, Relation.TransGen.single (by decide)⟩

/-! ## C6: edges of the Reeb graph -/

theorem bind_eq_some {α β : Type} (o : Option α) (f : α → Option β) (b : β)
    (h : o.bind f = some b) : ∃ a, o = some a ∧ f a = some b := by
  cases o with
  | none => cases h
  | some a => exact ⟨a, rfl, h⟩

theorem mapM_cons_some {α β : Type} (f : α → Option β) (a : α) (l : List α)
    (res : List β) (h : (a :: l).mapM f = some res) :
    ∃ b bs, f a = some b ∧ l.mapM f = some bs ∧ res = b :: bs := by
  rw [List.mapM_cons] at h
  cases hfa : f a with
  | none =>
    rw [hfa] at h
    have h3 : (none : Option (List β)) = some res := h
    cases h3
  | some b =>
    rw [hfa] at h
    have h3 : (l.mapM f).bind (fun xs => some (b :: xs)) = some res := h
    cases hml : l.mapM f with
    | none =>
      rw [hml] at h3
      cases h3
    | some bs =>
      rw [hml] at h3
      have h4 : some (b :: bs) = some res := h3
      injection h4 with h4
      exact ⟨b, bs, rfl, rfl, h4.symm⟩

theorem mapM_some_length {α β : Type} (f : α → Option β) (l : List α)
    (res : List β) (h : l.mapM f = some res) : res.length = l.length := by
  induction l generalizing res with
  | nil =>
    rw [List.mapM_nil] at h
    have h2 : some ([] : List β) = some res := h
    injection h2 with h2
    subst h2
    rfl
  | cons a l ih =>
    obtain ⟨b, bs, hfa, hml, rfl⟩ := mapM_cons_some f a l res h
    simp [ih bs hml]

theorem mapM_some_mem {α β : Type} (f : α → Option β) (l : List α)
    (res : List β) (h : l.mapM f = some res) :
    ∀ b ∈ res, ∃ a ∈ l, f a = some b := by
  induction l generalizing res with
  | nil =>
    rw [List.mapM_nil] at h
    have h2 : some ([] : List β) = some res := h
    injection h2 with h2
    subst h2
    intro b hb
    cases hb
  | cons a l ih =>
    obtain ⟨b, bs, hfa, hml, rfl⟩ := mapM_cons_some f a l res h
    intro x hx
    rcases List.mem_cons.mp hx with rfl | hx2
    · exact ⟨a, List.mem_cons_self a l, hfa⟩
    · obtain ⟨a2, ha2, hfa2⟩ := ih bs hml x hx2
      exact ⟨a2, List.mem_cons_of_mem a ha2, hfa2⟩

theorem mapM_some_get {α β : Type} (f : α → Option β) (l : List α)
    (res : List β) (h : l.mapM f = some res) (i : ℕ) (hi : i < l.length)
    (hi2 : i < res.length) :
    f (l.get ⟨i, hi⟩) = some (res.get ⟨i, hi2⟩) := by
  induction l generalizing res i with
  | nil => simp at hi
  | cons a l ih =>
    obtain ⟨b, bs, hfa, hml, rfl⟩ := mapM_cons_some f a l res h
    cases i with
    | zero => exact hfa
    | succ i =>
      exact ih bs hml i (Nat.lt_of_succ_lt_succ hi)
        (Nat.lt_of_succ_lt_succ hi2)

theorem listPairs_append {α : Type} (p q : α) (A B : List α) (hp : p ∈ A)
    (hq : q ∈ B) : (p, q) ∈ listPairs (A ++ B) := by
  induction A with
  | nil => cases hp
  | cons x xs ih =>
    rcases List.mem_cons.mp hp with rfl | hp2
    · show (p, q) ∈ ((xs ++ B).map fun y => (p, y)) ++ listPairs (xs ++ B)
      exact List.mem_append.mpr (Or.inl (List.mem_map.mpr
        ⟨q, List.mem_append_right xs hq, rfl⟩))
    · show (p, q) ∈ ((xs ++ B).map fun y => (x, y)) ++ listPairs (xs ++ B)
      exact List.mem_append.mpr (Or.inr (ih hp2))

theorem mem_listPairs {α : Type} (r : α × α) (l : List α)
    (h : r ∈ listPairs l) :
    ∃ l1 l2 l3, l = l1 ++ r.1 :: (l2 ++ r.2 :: l3) := by
  induction l with
  | nil => cases h
  | cons x xs ih =>
    rcases List.mem_append.mp h with h1 | h2
    · obtain ⟨y, hy, heq⟩ := List.mem_map.mp h1
      obtain ⟨l2, l3, rfl⟩ := List.mem_iff_append.mp hy
      refine ⟨[], l2, l3, ?_⟩
      rw [← heq]
      rfl
    · obtain ⟨l1, l2, l3, heq⟩ := ih h2
      exact ⟨x :: l1, l2, l3, by rw [heq, List.cons_append]⟩

theorem pairwise_of_listPairs {α : Type} {P : α → α → Prop} (r : α × α)
    (l : List α) (h : r ∈ listPairs l) (hpw : l.Pairwise P) : P r.1 r.2 := by
  obtain ⟨l1, l2, l3, rfl⟩ := mem_listPairs r l h
  have h1 : List.Sublist [r.2] (r.2 :: l3) := (List.nil_sublist l3).cons₂ r.2
  have h2 : List.Sublist [r.2] (l2 ++ r.2 :: l3) :=
    h1.trans (List.sublist_append_right l2 (r.2 :: l3))
  have h3 : List.Sublist [r.1, r.2] (r.1 :: (l2 ++ r.2 :: l3)) := h2.cons₂ r.1
  have hsub : List.Sublist [r.1, r.2] (l1 ++ r.1 :: (l2 ++ r.2 :: l3)) :=
    h3.trans (List.sublist_append_right l1 _)
  have hp2 := hpw.sublist hsub
  exact (List.pairwise_cons.mp hp2).1 r.2 (List.mem_singleton.mpr rfl)

theorem get_reeb_some_shape (G : TVG) (sample_times : Option (List XQ))
    (clusters_list : Option (List (List (List ℕ)))) (start stop : Option XQ)
    (rg : ReebGraph)
    (hres : get_reeb_graph G sample_times clusters_list start stop = some rg) :
    ∃ cl ts cols,
      ((List.range (List.length ts)).mapM fun i => reebColumnNodes G cl ts i) =
        some cols ∧
      rg.nodes = cols.flatten ∧
      rg.edges = reebEdges (List.length ts) rg.nodes := by
  unfold get_reeb_graph at hres
  obtain ⟨s, -, hres⟩ := bind_eq_some _ _ _ hres
  obtain ⟨e, -, hres⟩ := bind_eq_some _ _ _ hres
  obtain ⟨ts0, -, hres⟩ := bind_eq_some _ _ _ hres
  obtain ⟨cl, -, hres⟩ := bind_eq_some _ _ _ hres
  obtain ⟨nodes, hnodes, hres⟩ := bind_eq_some _ _ _ hres
  have hres2 : some (ReebGraph.mk nodes (reebEdges
      (ts0.filter fun t => decide (s ≤ t) && decide (t ≤ e)).length
      nodes)) = some rg := hres
  injection hres2 with hres2
  subst hres2
  unfold reebNodes at hnodes
  obtain ⟨cols, hcols, hflat⟩ := Option.map_eq_some'.mp hnodes
  exact ⟨cl, ts0.filter fun t => decide (s ≤ t) && decide (t ≤ e), cols,
    hcols, hflat.symm, rfl⟩

theorem filter_adjacent_cols (cols : List (List ((ℕ × ℕ) × Finset ℕ)))
    (hpure : ∀ j (hj : j < cols.length), ∀ nd ∈ cols.get ⟨j, hj⟩, nd.1.2 = j)
    (i : ℕ) (hi : i < cols.length) (hi1 : i + 1 < cols.length) :
    (cols.flatten.filter fun nd => nd.1.2 = i ∨ nd.1.2 = i + 1) =
      cols.get ⟨i, hi⟩ ++ cols.get ⟨i + 1, hi1⟩ := by
  have hdec : cols = cols.take i ++
      (cols.get ⟨i, hi⟩ :: (cols.get ⟨i + 1, hi1⟩ :: cols.drop (i + 2))) := by
    conv_lhs => rw [← List.take_append_drop i cols]
    rw [List.drop_eq_get_cons hi, List.drop_eq_get_cons hi1]
  conv_lhs => rw [hdec]
  rw [List.flatten_append, List.flatten_cons, List.flatten_cons,
    List.filter_append, List.filter_append, List.filter_append]
  have h1 : ((cols.take i).flatten.filter
      fun nd => nd.1.2 = i ∨ nd.1.2 = i + 1) = [] := by
    rw [List.filter_eq_nil_iff]
    intro nd hnd
    obtain ⟨b, hb, hmemb⟩ := List.mem_flatten.mp hnd
    obtain ⟨⟨j, hj⟩, hbj⟩ := List.mem_iff_get.mp hb
    have hjlt : j < i ∧ j < cols.length := by
      have := hj
      rw [List.length_take] at this
      omega
    have hget : cols.get ⟨j, hjlt.2⟩ = b := by
      rw [List.get_take cols hjlt.2 hjlt.1]
      exact hbj
    have hcol := hpure j hjlt.2 nd (hget ▸ hmemb)
    simp only [decide_eq_true_eq]
    omega
  have h4 : ((cols.drop (i + 2)).flatten.filter
      fun nd => nd.1.2 = i ∨ nd.1.2 = i + 1) = [] := by
    rw [List.filter_eq_nil_iff]
    intro nd hnd
    obtain ⟨b, hb, hmemb⟩ := List.mem_flatten.mp hnd
    obtain ⟨⟨j, hj⟩, hbj⟩ := List.mem_iff_get.mp hb
    have hjlt : i + 2 + j < cols.length := by
      have := hj
      rw [List.length_drop] at this
      omega
    have hget : cols.get ⟨i + 2 + j, hjlt⟩ = b := by
      rw [List.get_drop cols hjlt]
      exact hbj
    have hcol := hpure (i + 2 + j) hjlt nd (hget ▸ hmemb)
    simp only [decide_eq_true_eq]
    omega
  have h2 : ((cols.get ⟨i, hi⟩).filter
      fun nd => nd.1.2 = i ∨ nd.1.2 = i + 1) = cols.get ⟨i, hi⟩ := by
    rw [List.filter_eq_self]
    intro nd hnd
    have := hpure i hi nd hnd
    simp only [decide_eq_true_eq]
    omega
  have h3 : ((cols.get ⟨i + 1, hi1⟩).filter
      fun nd => nd.1.2 = i ∨ nd.1.2 = i + 1) = cols.get ⟨i + 1, hi1⟩ := by
    rw [List.filter_eq_self]
    intro nd hnd
    have := hpure (i + 1) hi1 nd hnd
    simp only [decide_eq_true_eq]
    omega
  rw [h1, h2, h3, h4]
  simp

/-- C6, amended to clusterings whose clusters are pairwise disjoint
within each column (always true for the default connected-components
clustering): every Reeb edge joins a node of some column `i` to a node
of column `i + 1` and exists exactly when the two equivalence classes
intersect; in particular no edge joins two nodes of the same column or
of columns two or more apart. -/
theorem claim_C6_reeb (G : TVG) (sample_times : Option (List XQ))
    (clusters_list : Option (List (List (List ℕ)))) (start stop : Option XQ)
    (rg : ReebGraph)
    (hres : get_reeb_graph G sample_times clusters_list start stop = some rg)
    (hdisj : rg.nodes.Pairwise fun a b => a.1.2 = b.1.2 → ∀ x ∈ a.2, x ∉ b.2) :
    (∀ p q : ℕ × ℕ, (p, q) ∈ rg.edges →
      ∃ ecp ecq, (p, ecp) ∈ rg.nodes ∧ (q, ecq) ∈ rg.nodes ∧
        q.2 = p.2 + 1 ∧ (ecp ∩ ecq).Nonempty) ∧
    (∀ p q : ℕ × ℕ, ∀ ecp ecq : Finset ℕ,
      (p, ecp) ∈ rg.nodes → (q, ecq) ∈ rg.nodes → q.2 = p.2 + 1 →
      (ecp ∩ ecq).Nonempty → (p, q) ∈ rg.edges) := by
  obtain ⟨cl, ts, cols, hcols, hnodes, hedges⟩ :=
    get_reeb_some_shape G sample_times clusters_list start stop rg hres
  have hlen : cols.length = ts.length := by
    have h := mapM_some_length _ _ _ hcols
    rwa [List.length_range] at h
  have hpure : ∀ j (hj : j < cols.length), ∀ nd ∈ cols.get ⟨j, hj⟩,
      nd.1.2 = j := by
    intro j hj nd hnd
    have hj2 : j < (List.range ts.length).length := by
      rw [List.length_range]
      omega
    have hcol := mapM_some_get _ _ _ hcols j hj2 hj
    rw [List.get_range] at hcol
    unfold reebColumnNodes at hcol
    cases cl with
    | none =>
      obtain ⟨c, -, hc⟩ := mapM_some_mem _ _ _ hcol nd hnd
      obtain ⟨r, -, hr⟩ := Option.map_eq_some'.mp hc
      rw [← hr]
    | some cll =>
      obtain ⟨c, -, hc⟩ := mapM_some_mem _ _ _ hcol nd hnd
      obtain ⟨r, -, hr⟩ := Option.map_eq_some'.mp hc
      rw [← hr]
  constructor
  · intro p q hpq
    rw [hedges] at hpq
    unfold reebEdges at hpq
    obtain ⟨i, hi, hmem⟩ := List.mem_flatMap.mp hpq
    rw [List.mem_range] at hi
    obtain ⟨pr, hpr, hif⟩ := List.mem_filterMap.mp hmem
    split at hif
    case isFalse => cases hif
    rename_i hI
    injection hif with hif
    injection hif with hif1 hif2
    have hi2 : i < cols.length := by omega
    have hi3 : i + 1 < cols.length := by omega
    have hblocks := filter_adjacent_cols cols hpure i hi2 hi3
    rw [hnodes, hblocks] at hpr
    have hmemor : pr.1 ∈ cols.get ⟨i, hi2⟩ ++ cols.get ⟨i + 1, hi3⟩ ∧
        pr.2 ∈ cols.get ⟨i, hi2⟩ ++ cols.get ⟨i + 1, hi3⟩ := by
      obtain ⟨l1, l2, l3, hdecomp⟩ := mem_listPairs pr _ hpr
      constructor
      · rw [hdecomp]
        simp
      · rw [hdecomp]
        simp
    have hmem1 : pr.1 ∈ rg.nodes := by
      rw [hnodes]
      rcases List.mem_append.mp hmemor.1 with h | h
      · exact List.mem_flatten.mpr ⟨_, List.get_mem cols i hi2, h⟩
      · exact List.mem_flatten.mpr ⟨_, List.get_mem cols (i + 1) hi3, h⟩
    have hmem2 : pr.2 ∈ rg.nodes := by
      rw [hnodes]
      rcases List.mem_append.mp hmemor.2 with h | h
      · exact List.mem_flatten.mpr ⟨_, List.get_mem cols i hi2, h⟩
      · exact List.mem_flatten.mpr ⟨_, List.get_mem cols (i + 1) hi3, h⟩
    have hc1 : pr.1.1.2 = i ∨ pr.1.1.2 = i + 1 := by
      rcases List.mem_append.mp hmemor.1 with h | h
      · exact Or.inl (hpure i hi2 _ h)
      · exact Or.inr (hpure (i + 1) hi3 _ h)
    have hc2 : pr.2.1.2 = i ∨ pr.2.1.2 = i + 1 := by
      rcases List.mem_append.mp hmemor.2 with h | h
      · exact Or.inl (hpure i hi2 _ h)
      · exact Or.inr (hpure (i + 1) hi3 _ h)
    have hQ : (cols.get ⟨i, hi2⟩ ++ cols.get ⟨i + 1, hi3⟩).Pairwise
        (fun a b : (ℕ × ℕ) × Finset ℕ => a.1.2 ≤ b.1.2) := by
      rw [List.pairwise_append]
      refine ⟨List.pairwise_of_forall_mem_list ?_,
        List.pairwise_of_forall_mem_list ?_, ?_⟩
      · intro a ha b hb
        rw [hpure i hi2 a ha, hpure i hi2 b hb]
      · intro a ha b hb
        rw [hpure (i + 1) hi3 a ha, hpure (i + 1) hi3 b hb]
      · intro a ha b hb
        rw [hpure i hi2 a ha, hpure (i + 1) hi3 b hb]
        omega
    have hord : pr.1.1.2 ≤ pr.2.1.2 := pairwise_of_listPairs pr _ hpr hQ
    have hP : (cols.get ⟨i, hi2⟩ ++ cols.get ⟨i + 1, hi3⟩).Pairwise
        (fun a b : (ℕ × ℕ) × Finset ℕ =>
          a.1.2 = b.1.2 → ∀ x ∈ a.2, x ∉ b.2) := by
      rw [← hblocks, ← hnodes]
      exact hdisj.sublist (List.filter_sublist _)
    have hPpr := pairwise_of_listPairs pr _ hpr hP
    have hne : pr.1.1.2 ≠ pr.2.1.2 := by
      intro hsame
      obtain ⟨x, hx⟩ := hI
      exact (hPpr hsame x (Finset.mem_inter.mp hx).1) (Finset.mem_inter.mp hx).2
    have hcc : pr.1.1.2 = i ∧ pr.2.1.2 = i + 1 := by
      rcases hc1 with h1 | h1 <;> rcases hc2 with h2 | h2
      · exact absurd (h1.trans h2.symm) hne
      · exact ⟨h1, h2⟩
      · omega
      · exact absurd (h1.trans h2.symm) hne
    refine ⟨pr.1.2, pr.2.2, ?_, ?_, ?_, hI⟩
    · rw [← hif1]
      exact hmem1
    · rw [← hif2]
      exact hmem2
    · rw [← hif1, ← hif2]
      show pr.2.1.2 = pr.1.1.2 + 1
      omega
  · rintro ⟨p1, p2⟩ ⟨q1, q2⟩ ecp ecq hp hq hcol hI
    have hcol2 : q2 = p2 + 1 := hcol
    subst hcol2
    have hploc : ∃ jp : Fin cols.length,
        ((p1, p2), ecp) ∈ cols.get jp ∧ p2 = jp.1 := by
      rw [hnodes] at hp
      obtain ⟨b, hb, hmemb⟩ := List.mem_flatten.mp hp
      obtain ⟨jp, hbj⟩ := List.mem_iff_get.mp hb
      rw [← hbj] at hmemb
      exact ⟨jp, hmemb, hpure jp.1 jp.2 _ hmemb⟩
    have hqloc : ∃ jq : Fin cols.length,
        ((q1, p2 + 1), ecq) ∈ cols.get jq ∧ p2 + 1 = jq.1 := by
      rw [hnodes] at hq
      obtain ⟨b, hb, hmemb⟩ := List.mem_flatten.mp hq
      obtain ⟨jq, hbj⟩ := List.mem_iff_get.mp hb
      rw [← hbj] at hmemb
      exact ⟨jq, hmemb, hpure jq.1 jq.2 _ hmemb⟩
    obtain ⟨⟨jp, hjp⟩, hpin, hpj⟩ := hploc
    obtain ⟨⟨jq, hjq⟩, hqin, hqj⟩ := hqloc
    simp only at hpj hqj
    subst hpj
    subst hqj
    rw [hedges]
    unfold reebEdges
    refine List.mem_flatMap.mpr ⟨p2, ?_, ?_⟩
    · rw [List.mem_range]
      omega
    · refine List.mem_filterMap.mpr ⟨(((p1, p2), ecp), ((q1, p2 + 1), ecq)),
        ?_, ?_⟩
      · have hblocks := filter_adjacent_cols cols hpure p2 hjp hjq
        rw [hnodes, hblocks]
        exact listPairs_append _ _ _ _ hpin hqin
      · rw [if_pos hI]

/-- C6 counterexample: with supplied overlapping clusters `{0,1}` and
`{1}` in the first column, the code links the two first-column nodes
`(0, 0)` and `(1, 0)`: an edge inside a single column, which the
original claim rules out. -/
theorem claim_C6_counterexample :
    ∃ rg, get_reeb_graph (mkTVG matUT) (some [ratXQ 1, ratXQ 2])
        (some [[[0, 1], [1]], [[0, 1]]]) (some (ratXQ 0)) (some (ratXQ 6)) =
        some rg ∧
      ((0, 0), (1, 0)) ∈ rg.edges :=
  ⟨_, rfl, by decide⟩

/-- C6 witness: the amended theorem applied to a concrete network with
the default connected-components clustering. -/
theorem claim_C6_witness :
    ∃ rg, get_reeb_graph (mkTVG matUT) (some [ratXQ 1, ratXQ 2]) none
        (some (ratXQ 0)) (some (ratXQ 6)) = some rg ∧
      ((∀ p q : ℕ × ℕ, (p, q) ∈ rg.edges →
        ∃ ecp ecq, (p, ecp) ∈ rg.nodes ∧ (q, ecq) ∈ rg.nodes ∧
          q.2 = p.2 + 1 ∧ (ecp ∩ ecq).Nonempty) ∧
      (∀ p q : ℕ × ℕ, ∀ ecp ecq : Finset ℕ,
        (p, ecp) ∈ rg.nodes → (q, ecq) ∈ rg.nodes → q.2 = p.2 + 1 →
        (ecp ∩ ecq).Nonempty → (p, q) ∈ rg.edges)) := by
  refine ⟨_, rfl, ?_⟩
  exact claim_C6_reeb (mkTVG matUT) (some [ratXQ 1, ratXQ 2]) none
    (some (ratXQ 0)) (some (ratXQ 6)) _ rfl (by decide)

/-- C5 witness: the amended theorem applied to a concrete network and
distinct sample times. -/
theorem claim_C5_witness :
    ∃ teg, get_teg (mkTVG matUT) (some [ratXQ 1, ratXQ 2]) ⊤
        (some (ratXQ 0)) (some (ratXQ 6)) = some teg ∧
      ∀ v : ℕ × XQ, ¬ Relation.TransGen (fun x y => (x, y) ∈ teg.edges) v v := by
  refine ⟨_, rfl, ?_⟩
  obtain ⟨tsf, -, -, hacyc⟩ := claim_C5_teg (mkTVG matUT)
    (some [ratXQ 1, ratXQ 2]) ⊤ (some (ratXQ 0)) (some (ratXQ 6)) _ rfl
    (by decide)
  exact hacyc

end SatParser
